import Mathlib

/-!
Shallow embedding of the query-tree core of `whoosh/query.py` and the
term-info merging of `whoosh/reading.py`, with theorems checking the
specification's claims about normalization, simplification, term
extraction, equality, error handling and matcher construction.

Python floats (boosts, weights, similarities) are modelled as rationals;
fieldnames and term texts as `String`; Python sets of terms as `Finset`.
-/

namespace Whoosh

/-- Kind tag for the three `CompoundQuery` subclasses that share
`CompoundQuery.normalize` (`And`, `Or`, `DisjunctionMax`).  The source's
`isinstance(s, self.__class__)` test can only succeed for the exact same
concrete class, since none of the three derives from another. -/
inductive CKind where
  | kAnd
  | kOr
  | kDMax
deriving DecidableEq

/-- The query tree of `whoosh/query.py`, one constructor per concrete class.
`Wildcard.prefix` and `Wildcard.expression` are attributes computed from
`text` at construction and are modelled as functions of `text`;
`Variations.words` is precomputed at construction by the external
`whoosh.lang.morph_en.variations`, so it is carried as a field. -/
inductive Query where
  | term (fieldname text : String) (boost : ℚ)
  | and (subqueries : List Query) (boost : ℚ)
  | or (subqueries : List Query) (boost : ℚ) (minmatch : Nat)
  | disMax (subqueries : List Query) (boost tiebreak : ℚ)
  | not (query : Query) (boost : ℚ)
  | prefixQ (fieldname text : String) (boost : ℚ)
  | wildcard (fieldname text : String) (boost : ℚ)
  | fuzzy (fieldname text : String) (boost minsimilarity : ℚ) (prefixlength : Nat)
  | range (fieldname start stop : String) (startexcl endexcl : Bool) (boost : ℚ)
  | variations (fieldname text : String) (boost : ℚ) (words : List String)
  | phrase (fieldname : String) (words : List String) (slop : Nat) (boost : ℚ)
  | every (boost : ℚ)
  | null
  | require (scored required : Query) (boost : ℚ)
  | andMaybe (required optional : Query) (boost : ℚ)
  | andNot (positive negative : Query) (boost : ℚ)

namespace Query

/-- `q is NullQuery` (the class is a singleton, so the identity test is
structural equality with the `null` variant). -/
def isNull : Query → Bool
  | .null => true
  | _ => false

/-- `isinstance(q, Not)`. -/
def isNot : Query → Bool
  | .not _ _ => true
  | _ => false

/-- The wrapped query of a `Not` node (`q.query`); `null` otherwise. -/
def notInner : Query → Query
  | .not q _ => q
  | _ => .null

end Query

/-- `isinstance(s, self.__class__)` for a compound of kind `k`: returns the
child's `subqueries` when the child is the same concrete class. -/
def CKind.sameClass : CKind → Query → Option (List Query)
  | .kAnd, .and cs _ => some cs
  | .kOr, .or cs _ _ => some cs
  | .kDMax, .disMax cs _ _ => some cs
  | _, _ => none

/-- `self.__class__(subqs, boost=self.boost)`: the reconstruction at the end
of `CompoundQuery.normalize`.  The `Or` and `DisjunctionMax` constructors
default `minmatch` to 0 and `tiebreak` to 0. -/
def CKind.mk : CKind → List Query → ℚ → Query
  | .kAnd, cs, b => .and cs b
  | .kOr, cs, b => .or cs b 0
  | .kDMax, cs, b => .disMax cs b 0

/-- `Wildcard.normalize` (`query.py`): `"*"` becomes `Every`; a glob with no
`*` and no `?` becomes `Term`; a glob whose only wildcard character is a
single unescaped `*` at the end becomes `Prefix`; otherwise the query is
returned unchanged.  `text.find("*")` is total here because the branch
requires `text.endswith("*")`. -/
def wildNormalize (f t : String) (b : ℚ) : Query :=
  if t = "*" then .every b
  else if '*' ∉ t.data ∧ '?' ∉ t.data then .term f t b
  else if '?' ∉ t.data ∧ t.data.getLast? = some '*' ∧
      t.data.findIdx (fun c => c = '*') = t.length - 1 ∧
      (t.length < 2 ∨ t.data[t.length - 2]? ≠ some '\\') then
    .prefixQ f (String.mk t.data.dropLast) b
  else .wildcard f t b

/-- The tail of `CompoundQuery.normalize` after its loop: `NullQuery` for no
survivors, the single survivor itself (dropping the compound's own boost,
and for `Or`/`DisjunctionMax` its `minmatch`/`tiebreak`), or the
reconstructed compound `self.__class__(subqs, boost=self.boost)`. -/
def finishCompound (k : CKind) (b : ℚ) : List Query → Query
  | [] => .null
  | [s] => s
  | subqs => k.mk subqs b

mutual

/-- `normalize` for every query class.  `Query.normalize` (the default for
`Term`, `Prefix`, `Wildcard`'s fallthrough, `FuzzyTerm`, `Variations`,
`Every`) returns the query unchanged; `CompoundQuery.normalize` first
returns `NullQuery` when every (original) child is `NullQuery`, then runs
its loop (`normLoop`) and finishes with `finishCompound` — the source
loops over the Null-filtered child list, and looping over all children is
equivalent because `NullQuery` normalizes to itself and is skipped by the
loop's own Null check; `Or.normalize` and `DisjunctionMax.normalize`
restore `minmatch` / `tiebreak` on the result when it is still the same
class; `Not`, `TermRange`, `Phrase`, `Require`, `AndMaybe`, `AndNot` and
`NullQuery` each follow their own overrides.  `Phrase.normalize` of a
one-word phrase builds `Term(fieldname, word)` with the *default* boost;
its filtering of `None` words is the identity here because words are
modelled as always-present strings. -/
def normalize : Query → Query
  | .term f t b => .term f t b
  | .and cs b =>
      if (cs.filter (fun q => !q.isNull)).isEmpty then .null
      else finishCompound .kAnd b (normLoop .kAnd cs [])
  | .or cs b mm =>
      if (cs.filter (fun q => !q.isNull)).isEmpty then .null
      else
        match finishCompound .kOr b (normLoop .kOr cs []) with
        | .or cs2 b2 _ => .or cs2 b2 mm
        | q => q
  | .disMax cs b tb =>
      if (cs.filter (fun q => !q.isNull)).isEmpty then .null
      else
        match finishCompound .kDMax b (normLoop .kDMax cs []) with
        | .disMax cs2 b2 _ => .disMax cs2 b2 tb
        | q => q
  | .not q b =>
      let q2 := normalize q
      if q2.isNull then .null else .not q2 b
  | .prefixQ f t b => .prefixQ f t b
  | .wildcard f t b => wildNormalize f t b
  | .fuzzy f t b ms pl => .fuzzy f t b ms pl
  | .range f s e sx ex b => if s = e then .term f s b else .range f s e sx ex b
  | .variations f t b ws => .variations f t b ws
  | .phrase f ws slop b =>
      match ws with
      | [] => .null
      | [w] => .term f w 1
      | _ => .phrase f ws slop b
  | .every b => .every b
  | .null => .null
  | .require a c b =>
      let a2 := normalize a
      let c2 := normalize c
      if a2.isNull || c2.isNull then .null else .require a2 c2 b
  | .andMaybe a c b =>
      let a2 := normalize a
      let c2 := normalize c
      if a2.isNull then .null else if c2.isNull then a2 else .andMaybe a2 c2 b
  | .andNot p n b =>
      let p2 := normalize p
      let n2 := normalize n
      if p2.isNull then .null else if n2.isNull then p2 else .andNot p2 n2 b

/-- The loop of `CompoundQuery.normalize` with its `seenterms` accumulator:
each child is normalized; `NullQuery` results are dropped; a `Term` whose
`(fieldname, text)` was already seen is dropped, and an unseen one is
recorded; a child of the same compound class is spliced (its subqueries
are appended without being recorded in `seenterms`); anything else is
appended. -/
def normLoop (k : CKind) (cs : List Query) (seen : List (String × String)) :
    List Query :=
  match cs with
  | [] => []
  | s :: rest =>
      match normalize s with
      | .null => normLoop k rest seen
      | .term f t b2 =>
          if (f, t) ∈ seen then normLoop k rest seen
          else .term f t b2 :: normLoop k rest ((f, t) :: seen)
      | s2 =>
          match k.sameClass s2 with
          | some cs2 => cs2 ++ normLoop k rest seen
          | none => s2 :: normLoop k rest seen

end

mutual

/-- Size measure on query trees (used for termination of `simplify` and for
induction over `normalize`).  `Require`/`AndMaybe` weigh one extra unit
because their `docs` methods delegate to a same-content `And` /
first-child query. -/
def qsize : Query → Nat
  | .and cs _ => 1 + qsizeList cs
  | .or cs _ _ => 1 + qsizeList cs
  | .disMax cs _ _ => 1 + qsizeList cs
  | .not q _ => 1 + qsize q
  | .require a c _ => 2 + qsize a + qsize c
  | .andMaybe a c _ => 2 + qsize a + qsize c
  | .andNot a c _ => 1 + qsize a + qsize c
  | _ => 1

/-- Sum of `qsize` over a list of children. -/
def qsizeList : List Query → Nat
  | [] => 0
  | q :: qs => qsize q + qsizeList qs

end

mutual

/-- Spec invariant 3: no `And`/`Or`/`DisjunctionMax` anywhere in the tree
has a direct child of its own variant. -/
def noNest : Query → Bool
  | .and cs _ => (cs.all fun s => (CKind.sameClass .kAnd s).isNone) && noNestList cs
  | .or cs _ _ => (cs.all fun s => (CKind.sameClass .kOr s).isNone) && noNestList cs
  | .disMax cs _ _ =>
      (cs.all fun s => (CKind.sameClass .kDMax s).isNone) && noNestList cs
  | .not q _ => noNest q
  | .require a c _ => noNest a && noNest c
  | .andMaybe a c _ => noNest a && noNest c
  | .andNot a c _ => noNest a && noNest c
  | _ => true

/-- `noNest` over a list of children. -/
def noNestList : List Query → Bool
  | [] => true
  | q :: qs => noNest q && noNestList qs

end

/-! ### Size lemmas (termination support for `simplify` and the matcher
construction below) -/

theorem qsizeP (q : Query) : 1 <= qsize q := by
  cases q <;> simp [qsize] <;> omega

theorem qsizeList_append_eq (l1 l2 : List Query) :
    qsizeList (l1 ++ l2) = qsizeList l1 + qsizeList l2 := by
  induction l1 with
  | nil => simp [qsizeList]
  | cons c rest ih => simp [qsizeList, ih]; omega

theorem qsizeList_filter_le (p : Query → Bool) (l : List Query) :
    qsizeList (l.filter p) ≤ qsizeList l := by
  induction l with
  | nil => simp [qsizeList]
  | cons c rest ih =>
    rw [List.filter_cons]
    split
    · simp [qsizeList]; omega
    · simp [qsizeList]
      have := qsizeP c
      omega

theorem qsizeList_take_le (l : List Query) (m : Nat) :
    qsizeList (l.take m) ≤ qsizeList l := by
  induction l generalizing m with
  | nil => simp [qsizeList]
  | cons c rest ih =>
    cases m with
    | zero => simp [qsizeList]
    | succ m2 =>
      simp only [List.take_succ_cons, qsizeList]
      have := ih m2
      omega

theorem qsizeList_perm {l1 l2 : List Query} (h : l1.Perm l2) :
    qsizeList l1 = qsizeList l2 := by
  induction h with
  | nil => rfl
  | cons x _ ih => simp [qsizeList, ih]
  | swap x y l => simp [qsizeList]; omega
  | trans _ _ ih1 ih2 => omega

/-- Helper: a same-class compound has size one plus the size of its
children. -/
theorem qsize_of_sameClass {k : CKind} {q : Query} {cs2 : List Query}
    (h : CKind.sameClass k q = some cs2) : qsize q = 1 + qsizeList cs2 := by
  cases k <;> cases q <;> simp [CKind.sameClass] at h <;> subst h <;>
    simp [qsize]

/-- The main size bound: `normalize` never grows a query. -/
theorem qsize_normalize_strong :
    ∀ n : Nat,
      (∀ q, qsize q ≤ n → qsize (normalize q) ≤ qsize q) ∧
      (∀ (k : CKind) (cs : List Query) (seen : List (String × String)),
        qsizeList cs ≤ n → qsizeList (normLoop k cs seen) ≤ qsizeList cs) := by
  intro n
  induction n using Nat.strong_induction_on with
  | _ n ih =>
  have P1 : ∀ q, qsize q ≤ n → qsize (normalize q) ≤ qsize q := by
    intro q hq
    match q with
    | .term f t b => simp [normalize]
    | .prefixQ f t b => simp [normalize]
    | .fuzzy f t b ms pl => simp [normalize]
    | .variations f t b ws => simp [normalize]
    | .every b => simp [normalize]
    | .null => simp [normalize]
    | .wildcard f t b =>
        simp only [normalize, wildNormalize]
        split <;> try simp [qsize]
        split <;> try simp [qsize]
        split <;> simp [qsize]
    | .range f s e sx ex b =>
        simp only [normalize]
        split <;> simp [qsize]
    | .phrase f ws sl b =>
        simp only [normalize]
        match ws with
        | [] => simp [qsize]
        | [w] => simp [qsize]
        | w1 :: w2 :: ws2 => simp [qsize]
    | .not q2 b =>
        have hsz : qsize q2 ≤ n - 1 ∧ n - 1 < n := by
          simp [qsize] at hq
          have := qsizeP q2
          omega
        have hrec := (ih (n - 1) hsz.2).1 q2 hsz.1
        simp only [normalize]
        by_cases h1 : (normalize q2).isNull = true
        · simp [h1, qsize] <;> omega
        · simp only [h1, if_false, Bool.false_eq_true, qsize]
          omega
    | .require a c b =>
        have hsz : qsize a ≤ n - 1 ∧ qsize c ≤ n - 1 ∧ n - 1 < n := by
          simp [qsize] at hq
          have := qsizeP a
          omega
        have hra := (ih (n - 1) hsz.2.2).1 a hsz.1
        have hrc := (ih (n - 1) hsz.2.2).1 c hsz.2.1
        simp only [normalize]
        by_cases h1 : ((normalize a).isNull || (normalize c).isNull) = true
        · simp [h1, qsize] <;> omega
        · simp only [h1, if_false, Bool.false_eq_true, qsize]
          omega
    | .andMaybe a c b =>
        have hsz : qsize a ≤ n - 1 ∧ qsize c ≤ n - 1 ∧ n - 1 < n := by
          simp [qsize] at hq
          have := qsizeP a
          omega
        have hra := (ih (n - 1) hsz.2.2).1 a hsz.1
        have hrc := (ih (n - 1) hsz.2.2).1 c hsz.2.1
        simp only [normalize]
        by_cases h1 : (normalize a).isNull = true
        · simp [h1, qsize] <;> omega
        · by_cases h2 : (normalize c).isNull = true
          · simp [h1, h2, qsize] <;> omega
          · simp only [h1, h2, if_false, Bool.false_eq_true, qsize]
            omega
    | .andNot a c b =>
        have hsz : qsize a ≤ n - 1 ∧ qsize c ≤ n - 1 ∧ n - 1 < n := by
          simp [qsize] at hq
          have := qsizeP a
          omega
        have hra := (ih (n - 1) hsz.2.2).1 a hsz.1
        have hrc := (ih (n - 1) hsz.2.2).1 c hsz.2.1
        simp only [normalize]
        by_cases h1 : (normalize a).isNull = true
        · simp [h1, qsize] <;> omega
        · by_cases h2 : (normalize c).isNull = true
          · simp [h1, h2, qsize] <;> omega
          · simp only [h1, h2, if_false, Bool.false_eq_true, qsize]
            omega
    | .and cs b =>
        have hsz : qsizeList cs ≤ n - 1 ∧ n - 1 < n := by
          simp [qsize] at hq
          omega
        have key := (ih (n - 1) hsz.2).2 .kAnd cs [] hsz.1
        simp only [normalize]
        split
        · simp [qsize] <;> omega
        · cases hL : normLoop .kAnd cs [] with
          | nil => simp [finishCompound, qsize] <;> omega
          | cons s rest =>
            rw [hL] at key
            cases rest with
            | nil =>
                simp only [finishCompound]
                simp [qsizeList] at key
                simp [qsize]
                omega
            | cons s2 rest2 =>
                simp only [finishCompound, CKind.mk, qsize]
                omega
    | .or cs b mm =>
        have hsz : qsizeList cs ≤ n - 1 ∧ n - 1 < n := by
          simp [qsize] at hq
          omega
        have key := (ih (n - 1) hsz.2).2 .kOr cs [] hsz.1
        simp only [normalize]
        split
        · simp [qsize] <;> omega
        · cases hL : normLoop .kOr cs [] with
          | nil => simp [finishCompound, qsize] <;> omega
          | cons s rest =>
            rw [hL] at key
            cases rest with
            | nil =>
                simp only [finishCompound]
                simp [qsizeList] at key
                cases s <;> simp [qsize] at key ⊢ <;> omega
            | cons s2 rest2 =>
                simp only [finishCompound, CKind.mk, qsize]
                omega
    | .disMax cs b tb =>
        have hsz : qsizeList cs ≤ n - 1 ∧ n - 1 < n := by
          simp [qsize] at hq
          omega
        have key := (ih (n - 1) hsz.2).2 .kDMax cs [] hsz.1
        simp only [normalize]
        split
        · simp [qsize] <;> omega
        · cases hL : normLoop .kDMax cs [] with
          | nil => simp [finishCompound, qsize] <;> omega
          | cons s rest =>
            rw [hL] at key
            cases rest with
            | nil =>
                simp only [finishCompound]
                simp [qsizeList] at key
                cases s <;> simp [qsize] at key ⊢ <;> omega
            | cons s2 rest2 =>
                simp only [finishCompound, CKind.mk, qsize]
                omega
  refine ⟨P1, ?_⟩
  intro k cs
  induction cs with
  | nil => intro seen _; simp [normLoop]
  | cons c rest ihl =>
    intro seen hcs
    have hqc : qsize c ≤ n := by
      simp [qsizeList] at hcs
      omega
    have hrest : qsizeList rest ≤ n := by
      simp [qsizeList] at hcs
      have := qsizeP c
      omega
    have hstep := P1 c hqc
    have hc1 := qsizeP c
    rw [normLoop]
    split
    · -- normalize c is NullQuery: the child is skipped
      have := ihl seen hrest
      simp [qsizeList]
      omega
    · -- normalize c is a Term: dedup or append
      rename_i f t b2 heq
      split
      · have := ihl seen hrest
        simp [qsizeList]
        omega
      · have := ihl ((f, t) :: seen) hrest
        have ht : qsize (Query.term f t b2) = 1 := rfl
        simp [qsizeList]
        omega
    · -- any other result: splice or append
      rename_i s2 hne1 hne2
      split
      · rename_i cs2 heq2
        have h2 := ihl seen hrest
        rw [qsizeList_append_eq]
        have h3 := qsize_of_sameClass heq2
        simp [qsizeList]
        omega
      · have h2 := ihl seen hrest
        simp [qsizeList]
        omega

/-- `normalize` never grows a query. -/
theorem qsize_normalize_le (q : Query) : qsize (normalize q) ≤ qsize q :=
  (qsize_normalize_strong (qsize q)).1 q le_rfl

/-- The size of the inner queries of the `Not` children is bounded by the
children themselves. -/
theorem qsizeList_notInner_le (cs : List Query) :
    qsizeList ((cs.filter (fun q => q.isNot)).map Query.notInner) ≤ qsizeList cs := by
  induction cs with
  | nil => simp [qsizeList]
  | cons c rest ih =>
    rw [List.filter_cons]
    split
    · rename_i hc
      cases c <;> simp [Query.isNot] at hc <;>
        simp [Query.notInner, qsizeList, qsize] <;> omega
    · simp [qsizeList]
      have := qsizeP c
      omega

/-- Strict version: when there is at least one `Not` child. -/
theorem qsizeList_notInner_lt {cs : List Query}
    (hnots : cs.filter (fun q => q.isNot) ≠ []) :
    qsizeList ((cs.filter (fun q => q.isNot)).map Query.notInner) < qsizeList cs := by
  induction cs with
  | nil => simp at hnots
  | cons c rest ih =>
    rw [List.filter_cons] at hnots ⊢
    by_cases hc : c.isNot = true
    · rw [if_pos hc] at hnots ⊢
      have hle := qsizeList_notInner_le rest
      cases c <;> simp [Query.isNot] at hc <;>
        simp [Query.notInner, qsizeList, qsize] <;> omega
    · rw [if_neg hc] at hnots ⊢
      have := ih hnots
      simp [qsizeList]
      have := qsizeP c
      omega

/-- Python exceptions that the modelled operations can raise. -/
inductive Err where
  | termNotFound
  | queryError
  | notImplementedError
  | typeError
  | attributeError
  | valueError
deriving DecidableEq

/-- `Phrase.__eq__` from the source:
`other and self.__class__ is other.__class__ and
 self.fieldname == other.fieldname and self.words == other.word and
 self.slop == other.slop and self.boost == other.boost`.
The `and`-chain short-circuits left to right.  When `other` is not a
`Phrase`, the class test fails and the result is `False`; when it is a
`Phrase` with a different fieldname, the fieldname test fails and the
result is `False`; otherwise the next conjunct reads `other.word`, an
attribute no class in the module defines (`Phrase` stores `words`), so
the comparison raises `AttributeError`. -/
def phraseEqCode (fieldname : String) (words : List String) (slop : Nat)
    (boost : ℚ) (other : Query) : Except Err Bool :=
  match other with
  | .phrase f2 _ _ _ =>
      if fieldname = f2 then .error .attributeError else .ok false
  | _ => .ok false

/-- An element of a Python term set built by `all_terms`: most leaves add
`(fieldname, text)` tuples, but `Variations._all_terms` adds the bare
text string. -/
inductive TermItem where
  | pair (fieldname text : String)
  | bare (text : String)
deriving DecidableEq

mutual

/-- `_all_terms(termset, phrases)` for every query class.  `Term` adds its
`(fieldname, text)`; `CompoundQuery` (`And`, `Or`, `DisjunctionMax`,
`Require`, `AndMaybe`) recurses into every subquery; `Not` recurses into
its child and `AndNot` only into its positive half; `MultiTerm`'s default
(`Prefix`, `Wildcard`, `TermRange`) adds nothing; `FuzzyTerm` *overrides*
the default and adds its `(fieldname, text)`; `Variations` adds the bare
`text` (not a tuple); `Phrase` adds its word pairs when `phrases` is
true.  `Every` and `NullQuery` define no `_all_terms`, so calling
`all_terms` on them raises `AttributeError`, modelled as `none`. -/
def allTermsAux (phrases : Bool) : Query → Finset TermItem → Option (Finset TermItem)
  | .term f t _, ts => some (insert (.pair f t) ts)
  | .and cs _, ts => allTermsList phrases cs ts
  | .or cs _ _, ts => allTermsList phrases cs ts
  | .disMax cs _ _, ts => allTermsList phrases cs ts
  | .not q _, ts => allTermsAux phrases q ts
  | .prefixQ _ _ _, ts => some ts
  | .wildcard _ _ _, ts => some ts
  | .fuzzy f t _ _ _, ts => some (insert (.pair f t) ts)
  | .range _ _ _ _ _ _, ts => some ts
  | .variations _ t _ _, ts => some (insert (.bare t) ts)
  | .phrase f ws _ _, ts =>
      some (if phrases then ws.foldl (fun acc w => insert (.pair f w) acc) ts else ts)
  | .every _, _ => none
  | .null, _ => none
  | .require a c _, ts =>
      match allTermsAux phrases a ts with
      | none => none
      | some ts2 => allTermsAux phrases c ts2
  | .andMaybe a c _, ts =>
      match allTermsAux phrases a ts with
      | none => none
      | some ts2 => allTermsAux phrases c ts2
  | .andNot a _ _, ts => allTermsAux phrases a ts

/-- `CompoundQuery._all_terms`: fold `all_terms` over the subqueries in
order. -/
def allTermsList (phrases : Bool) : List Query → Finset TermItem → Option (Finset TermItem)
  | [], ts => some ts
  | q :: qs, ts =>
      match allTermsAux phrases q ts with
      | none => none
      | some ts2 => allTermsList phrases qs ts2

end

/-- `Query.all_terms(termset=None, phrases=True)` starting from the empty
set. -/
def allTerms (q : Query) (phrases : Bool) : Option (Finset TermItem) :=
  allTermsAux phrases q ∅

/-! ### The reader consumed by `query.py` -/

/-- The index snapshot consumed by `query.py`'s `_words`, `simplify`,
`estimate_size` and `matcher`.  Modelled from the spec: the module uses a
reader object through `fieldname_to_num`, `expand_prefix`, `lexicon`,
`iter_from`, `__contains__`, `doc_frequency`, `doc_count`,
`doc_count_all` and `is_deleted` (the searcher/reading counterpart in this
repository does not match the calls, so the reader is modelled as data:
its sorted term dictionary maps `(fieldnum, text)` keys to posting lists
of `(docnum, positions)` pairs). -/
structure Reader where
  fields : List String
  termDict : List ((Nat × String) × List (Nat × List Nat))
  docCountAll : Nat
  deleted : List Nat

namespace Reader

/-- Modelled from the spec: field numbers index the schema's field list
(lookup of an unknown field, which Python reports as an error, is out of
scope for the claims below). -/
def fieldnameToNum (r : Reader) (f : String) : Nat :=
  r.fields.findIdx (fun x => x = f)

/-- `(fieldnum, text) in reader`. -/
def containsNum (r : Reader) (key : Nat × String) : Bool :=
  (r.termDict.lookup key).isSome

/-- `(fieldname, word) in reader` (the keying used by
`Variations._words` and `MultiTerm._existing_terms`). -/
def containsName (r : Reader) (f w : String) : Bool :=
  r.containsNum (r.fieldnameToNum f, w)

/-- The posting list of a term (empty for a missing term; only consulted
for present terms). -/
def postingList (r : Reader) (fn : Nat) (t : String) : List (Nat × List Nat) :=
  (r.termDict.lookup (fn, t)).getD []

/-- `doc_frequency(fieldnum, text)`: the number of documents in the term's
posting list. -/
def docFreq (r : Reader) (fn : Nat) (t : String) : Nat :=
  (r.postingList fn t).length

/-- `doc_count()`: documents minus deletions. -/
def docCount (r : Reader) : Nat :=
  r.docCountAll - ((List.range r.docCountAll).filter (fun d => r.deleted.contains d)).length

/-- All `(fieldnum, text)` keys of the term dictionary, in stored
(lexicographic) order. -/
def termKeys (r : Reader) : List (Nat × String) :=
  r.termDict.map (fun e => e.1)

/-- The texts of one field, in stored order. -/
def fieldTerms (r : Reader) (fn : Nat) : List String :=
  ((r.termKeys.filter (fun e => e.1 = fn)).map (fun e => e.2))

/-- Modelled from the spec: `expand_prefix(field, prefix)` starts at
`(field, prefix)` inclusive and terminates at the first entry that does
not start with the prefix. -/
def expandPre (r : Reader) (f pfx : String) : List String :=
  (((r.fieldTerms (r.fieldnameToNum f)).dropWhile (fun t => t < pfx)).takeWhile
    (fun t => pfx.isPrefixOf t))

/-- Modelled from the spec: `lexicon(field)` yields every term of the
field. -/
def lexicon (r : Reader) (f : String) : List String :=
  r.fieldTerms (r.fieldnameToNum f)

/-- Lexicographic order on `(fieldnum, text)` keys. -/
def keyLt (a b : Nat × String) : Bool :=
  a.1 < b.1 || (a.1 = b.1 && a.2 < b.2)

/-- Modelled from the spec: `iter_from(fieldnum, text)` yields the term
dictionary entries starting at `(fieldnum, text)` inclusive (`query.py`
unpacks 4-tuples but uses only the first two components, modelled as the
keys). -/
def iterFrom (r : Reader) (fn : Nat) (start : String) : List (Nat × String) :=
  r.termKeys.dropWhile (fun e => keyLt e (fn, start))

end Reader

/-- The loop of `TermRange._words`: walk `iter_from(fieldnum, start)`;
stop at the first key of another field; skip `start` when the range start
is exclusive; stop at `end` when the range end is exclusive; stop past
`end`; yield everything else. -/
def rangeWords (fn : Nat) (s e : String) (sx ex : Bool) :
    List (Nat × String) → List String
  | [] => []
  | (fn2, t) :: rest =>
      if fn2 ≠ fn then []
      else if t = s ∧ sx then rangeWords fn s e sx ex rest
      else if t = e ∧ ex then []
      else if e < t then []
      else t :: rangeWords fn s e sx ex rest

/-- `text.find(c)` (Python): index of the first occurrence, `-1` when
absent. -/
def pyFind (t : String) (c : Char) : Int :=
  match t.data.findIdx? (fun x => x = c) with
  | some i => (i : Int)
  | none => -1

/-- `Wildcard.__init__`'s `prefix` attribute: the substring before the
first wildcard character. -/
def wildPre (t : String) : String :=
  let qm := pyFind t '?'
  let st := pyFind t '*'
  if qm < 0 ∧ st < 0 then ""
  else if qm < 0 then String.mk (t.data.take st.toNat)
  else if st < 0 then String.mk (t.data.take qm.toNat)
  else String.mk (t.data.take (min st qm).toNat)

/-- Modelled from the spec: the compiled glob expression of a `Wildcard`
(`re.compile(fnmatch.translate(text))`, both external library code)
matches the whole candidate, `?` matching a single character and `*` any
run of characters. -/
def globMatch (ps : List Char) (s : List Char) : Bool :=
  match ps, s with
  | [], [] => true
  | [], _ :: _ => false
  | '*' :: ps2, s =>
      globMatch ps2 s ||
        (match s with
         | [] => false
         | _ :: s2 => globMatch ('*' :: ps2) s2)
  | _ :: _, [] => false
  | p :: ps2, c :: s2 => (p = '?' || p = c) && globMatch ps2 s2
termination_by (s.length, ps.length)

/-- Modelled from the spec: restricted Damerau-Levenshtein edit distance
(`whoosh.support.levenshtein`, not part of the sources): insertion,
deletion, substitution and adjacent transposition. -/
def dlDist (as bs : List Char) : Nat :=
  match as, bs with
  | [], bs => bs.length
  | as, [] => as.length
  | a :: as2, b :: bs2 =>
      let d1 := dlDist as2 (b :: bs2) + 1
      let d2 := dlDist (a :: as2) bs2 + 1
      let d3 := dlDist as2 bs2 + (if a = b then 0 else 1)
      let base := min d1 (min d2 d3)
      match as2, bs2 with
      | a2 :: as3, b2 :: bs3 =>
          if a = b2 ∧ b = a2 then min base (dlDist as3 bs3 + 1) else base
      | _, _ => base
termination_by as.length + bs.length

/-- Modelled from the spec: `relative(a, b)`, the Damerau-Levenshtein
similarity ratio in `[0, 1]`. -/
def relative (a b : String) : ℚ :=
  let m := max a.length b.length
  if m = 0 then 1 else 1 - (dlDist a.data b.data : ℚ) / (m : ℚ)

/-- `_words(ixreader)` for the multi-term classes:
`Prefix._words` expands the prefix; `Wildcard._words` filters the prefix
expansion (or the whole lexicon when the glob starts with a wildcard) by
the compiled expression; `FuzzyTerm._words` yields the expansion of the
shared prefix that equals the text or is similar enough;
`TermRange._words` walks `iter_from`; `Variations._words` keeps the
precomputed variations that exist in the index.  Other classes define no
`_words` (the `MultiTerm` default raises `NotImplementedError`). -/
def qwords (r : Reader) : Query → List String
  | .prefixQ f t _ => r.expandPre f t
  | .wildcard f t _ =>
      let pre := wildPre t
      let candidates := if pre ≠ "" then r.expandPre f pre else r.lexicon f
      candidates.filter (fun w => globMatch t.data w.data)
  | .fuzzy f t _ ms pl =>
      (r.expandPre f (String.mk (t.data.take pl))).filter
        (fun w => t = w || relative t w > ms)
  | .range f s e sx ex _ => rangeWords (r.fieldnameToNum f) s e sx ex
      (r.iterFrom (r.fieldnameToNum f) s)
  | .variations f _ _ ws => ws.filter (fun w => r.containsName f w)
  | _ => []

/-- `MultiTerm.simplify`: `Or([Term(fieldname, word, boost=self.boost) for
word in self._words(ixreader)])` (the `Or` takes the default boost 1 and
minmatch 0). -/
def multiSimplify (f : String) (b : ℚ) (ws : List String) : Query :=
  .or (ws.map (fun w => .term f w b)) 1 0

mutual

/-- `Query.simplify(ixreader)` per class.  The default (`Term`, `Not`,
`Every`, `AndNot`, `NullQuery`) returns the query unchanged.
`CompoundQuery.simplify` splits the children into non-`Not` and `Not`
ones; with no non-`Not` children it returns `NullQuery`; otherwise it
rebuilds the compound from the recursively simplified non-`Not` children
(dropping `minmatch`/`tiebreak`, which the reconstruction does not pass)
and then, when there are `Not` children, evaluates
`Or(nots).normalize().simplify()` — a call that passes no `ixreader`
argument to a method whose signature requires one, so it raises
`TypeError` (after the positives' own errors, which come first).
The multi-term leaves become `Or`s over their expansions; `Phrase`
inherits `MultiTerm.simplify` but defines no `_words`, so it raises
`NotImplementedError`.  `Require` and `AndMaybe` inherit
`CompoundQuery.simplify`, whose reconstruction calls their binary
constructors with a single positional list argument and therefore raises
`TypeError` (after simplifying the children, whose errors come first). -/
def simplify (r : Reader) : Query → Except Err Query
  | .term f t b => .ok (.term f t b)
  | .and cs b =>
      let subs := cs.filter (fun q => !q.isNot)
      let nots := (cs.filter (fun q => q.isNot)).map Query.notInner
      if hsE : subs.isEmpty then .ok .null
      else do
        let ss ← simplifyList r subs
        if hnE : nots.isEmpty then .ok (.and ss b)
        else .error .typeError
  | .or cs b mm =>
      let subs := cs.filter (fun q => !q.isNot)
      let nots := (cs.filter (fun q => q.isNot)).map Query.notInner
      if hsE : subs.isEmpty then .ok .null
      else do
        let ss ← simplifyList r subs
        if hnE : nots.isEmpty then .ok (.or ss b 0)
        else .error .typeError
  | .disMax cs b tb =>
      let subs := cs.filter (fun q => !q.isNot)
      let nots := (cs.filter (fun q => q.isNot)).map Query.notInner
      if hsE : subs.isEmpty then .ok .null
      else do
        let ss ← simplifyList r subs
        if hnE : nots.isEmpty then .ok (.disMax ss b 0)
        else .error .typeError
  | .not q b => .ok (.not q b)
  | .prefixQ f t b => .ok (multiSimplify f b (qwords r (.prefixQ f t b)))
  | .wildcard f t b => .ok (multiSimplify f b (qwords r (.wildcard f t b)))
  | .fuzzy f t b ms pl => .ok (multiSimplify f b (qwords r (.fuzzy f t b ms pl)))
  | .range f s e sx ex b =>
      .ok (multiSimplify f b (qwords r (.range f s e sx ex b)))
  | .variations f t b ws =>
      .ok (multiSimplify f b (qwords r (.variations f t b ws)))
  | .phrase _ _ _ _ => .error .notImplementedError
  | .every b => .ok (.every b)
  | .null => .ok .null
  | .require a c b =>
      let subs := [a, c].filter (fun q => !q.isNot)
      if hsE : subs.isEmpty then .ok .null
      else do
        let _ ← simplifyList r subs
        .error .typeError
  | .andMaybe a c b =>
      let subs := [a, c].filter (fun q => !q.isNot)
      if hsE : subs.isEmpty then .ok .null
      else do
        let _ ← simplifyList r subs
        .error .typeError
  | .andNot a c b => .ok (.andNot a c b)
termination_by q => 2 * qsize q
decreasing_by
  all_goals simp_wf
  · have h1 := qsizeList_filter_le (fun q => !q.isNot) cs
    simp [qsize]
    omega
  · have h1 := qsizeList_filter_le (fun q => !q.isNot) cs
    simp [qsize]
    omega
  · have h1 := qsizeList_filter_le (fun q => !q.isNot) cs
    simp [qsize]
    omega
  · have h1 := qsizeList_filter_le (fun q => !q.isNot) [a, c]
    simp [qsize, qsizeList] at h1 ⊢
    have := qsizeP a
    have := qsizeP c
    omega
  · have h1 := qsizeList_filter_le (fun q => !q.isNot) [a, c]
    simp [qsize, qsizeList] at h1 ⊢
    have := qsizeP a
    have := qsizeP c
    omega

/-- The list comprehension `[subq.simplify(ixreader) for subq in subs]`
(the first raised error propagates). -/
def simplifyList (r : Reader) : List Query → Except Err (List Query)
  | [] => .ok []
  | q :: qs => do
      let q2 ← simplify r q
      let qs2 ← simplifyList r qs
      .ok (q2 :: qs2)
termination_by l => 2 * qsizeList l + 1
decreasing_by
  all_goals simp_wf
  · simp [qsizeList]
    omega
  · have := qsizeP s
    simp [qsizeList]
    omega

end

/-! ### Matchers and execution planning -/

/-- The searcher consumed by `matcher`: it wraps the reader
(`searcher.reader()`) and the per-field position support consulted by
`Phrase.matcher` (`searcher.field(fieldnum).format/vector
.supports("positions")`).  Modelled from the spec (the searching module is
not part of the sources). -/
structure Searcher where
  rdr : Reader
  posFields : List Nat
  vecFields : List Nat

/-- Streaming matchers, one constructor per matcher class used by
`query.py`.  Modelled from the spec (the matching module is not part of
the sources): each constructor records the construction arguments; a
posting matcher carries its term's posting list (doc ids with positions)
and the exclusion set; `InverseMatcher`'s `missing` predicate is the
reader's deletion test, recorded as the deleted-ids list; the
vector-based phrase matcher records the words' posting lists as its
positional data (per-document term vectors are not modelled
separately). -/
inductive Matcher where
  | nullM
  | postingM (fieldnum : Nat) (text : String) (postings : List (Nat × List Nat))
      (excludeDocs : Option (List Nat))
  | everyM (limit : Nat) (exclude : List Nat)
  | inverseM (child : Matcher) (limit : Nat) (missing : List Nat)
  | intersectionM (a b : Matcher)
  | unionM (a b : Matcher)
  | disMaxM (a b : Matcher)
  | requireM (a b : Matcher)
  | andMaybeM (a b : Matcher)
  | wrappingM (child : Matcher) (boost : ℚ)
  | postingPhraseM (wordMatchers : List Matcher) (isect : Matcher) (slop : Nat)
  | vectorPhraseM (wordPostings : List (List (Nat × List Nat))) (isect : Matcher)
      (slop : Nat)

/-- `searcher.fieldname_to_num`. -/
def sFieldnameToNum (s : Searcher) (f : String) : Nat :=
  s.rdr.fieldnameToNum f

/-- Modelled from the spec: `searcher.postings(fieldnum, text,
exclude_docs)` raises `TermNotFound` for unknown terms and otherwise
returns the term's posting matcher carrying the exclusion set. -/
def sPostings (s : Searcher) (fn : Nat) (t : String)
    (excl : Option (List Nat)) : Except Err Matcher :=
  if s.rdr.containsNum (fn, t) then
    .ok (.postingM fn t (s.rdr.postingList fn t) excl)
  else .error .termNotFound

/-- Modelled from the spec: ascending duplicate-free merge of two matcher
id streams (2-way union yields the minimum; on equality it yields once
and advances both sides). -/
def mergeIds : List Nat → List Nat → List Nat
  | [], b => b
  | a, [] => a
  | x :: xs, y :: ys =>
      if x < y then x :: mergeIds xs (y :: ys)
      else if y < x then y :: mergeIds (x :: xs) ys
      else x :: mergeIds xs ys
termination_by a b => a.length + b.length

/-- Modelled from the spec: `make_tree(cls, matchers)` builds a balanced
binary tree of 2-ary combinators, splitting the list into halves;
empty ⇒ `NullMatcher`, singleton ⇒ the matcher itself. -/
def makeTree (comb : Matcher → Matcher → Matcher) : List Matcher → Matcher
  | [] => .nullM
  | [m] => m
  | m1 :: m2 :: rest =>
      comb (makeTree comb ((m1 :: m2 :: rest).take ((m1 :: m2 :: rest).length / 2)))
        (makeTree comb ((m1 :: m2 :: rest).drop ((m1 :: m2 :: rest).length / 2)))
termination_by ms => ms.length
decreasing_by
  · simp [List.length_take]
    omega
  · simp [List.length_drop]
    omega

mutual

/-- Modelled from the spec (§4.4): there is a strictly increasing chain of
positions, one from each remaining list, each within `slop` of the
previous one. -/
def chainFrom (slop prev : Nat) : List (List Nat) → Bool
  | [] => true
  | ps :: rest => chainPick slop prev ps rest

/-- Try each candidate position of the current word. -/
def chainPick (slop prev : Nat) : List Nat → List (List Nat) → Bool
  | [], _ => false
  | p :: ps, rest =>
      (decide (prev < p) && decide (p ≤ prev + slop) && chainFrom slop p rest)
        || chainPick slop prev ps rest

end

/-- Modelled from the spec: a document matches a phrase when some position
of the first word starts a chain through all the words. -/
def phraseHit (slop : Nat) : List (List Nat) → Bool
  | [] => true
  | ps :: rest => ps.any (fun p => chainFrom slop p rest)

/-- The positions a word matcher stores for a document. -/
def positionsFor (m : Matcher) (d : Nat) : List Nat :=
  match m with
  | .postingM _ _ pl _ => (pl.lookup d).getD []
  | _ => []

/-- The positions a posting list stores for a document. -/
def positionsIn (pl : List (Nat × List Nat)) (d : Nat) : List Nat :=
  (pl.lookup d).getD []

/-- Modelled from the spec (§4.3): the set semantics of each matcher,
as the ascending list of document ids it yields (`all_ids`). -/
def allIds : Matcher → List Nat
  | .nullM => []
  | .postingM _ _ pl excl =>
      (pl.map (fun e => e.1)).filter (fun d => !(excl.getD []).contains d)
  | .everyM limit excl => (List.range limit).filter (fun d => !excl.contains d)
  | .inverseM child limit missing =>
      let childIds := allIds child
      (List.range limit).filter
        (fun d => !missing.contains d && !childIds.contains d)
  | .intersectionM a b =>
      let bIds := allIds b
      (allIds a).filter (fun d => bIds.contains d)
  | .unionM a b => mergeIds (allIds a) (allIds b)
  | .disMaxM a b => mergeIds (allIds a) (allIds b)
  | .requireM a b =>
      let bIds := allIds b
      (allIds a).filter (fun d => bIds.contains d)
  | .andMaybeM a _ => allIds a
  | .wrappingM c _ => allIds c
  | .postingPhraseM wms isect slop =>
      (allIds isect).filter
        (fun d => phraseHit slop (wms.map (fun m => positionsFor m d)))
  | .vectorPhraseM wps isect slop =>
      (allIds isect).filter
        (fun d => phraseHit slop (wps.map (fun pl => positionsIn pl d)))

mutual

/-- `Query.estimate_size(searcher)` per class: `Term` → document
frequency; `And` → minimum over the children (Python's `min` raises
`ValueError` on an empty generator); `Or`/`DisjunctionMax` → sum over
the children; `Not`/`Every` → `doc_count`; multi-term → sum of the
document frequencies of the expansion; `Phrase` → the estimate of
`And([Term(fn, w) for w in words])`, i.e. the minimum of the words'
document frequencies; `NullQuery` → 0.  `Require`, `AndMaybe` and
`AndNot` inherit `Query.estimate_size`, which raises
`NotImplementedError`. -/
def estimateSize (s : Searcher) : Query → Except Err Nat
  | .term f t _ => .ok (s.rdr.docFreq (s.rdr.fieldnameToNum f) t)
  | .and cs _ => do
      let ks ← estList s cs
      match ks with
      | [] => .error .valueError
      | k :: ks2 => .ok (ks2.foldl min k)
  | .or cs _ _ => do
      let ks ← estList s cs
      .ok (ks.foldl (· + ·) 0)
  | .disMax cs _ _ => do
      let ks ← estList s cs
      .ok (ks.foldl (· + ·) 0)
  | .not _ _ => .ok s.rdr.docCount
  | .prefixQ f t b =>
      .ok (((qwords s.rdr (.prefixQ f t b)).map
        (fun w => s.rdr.docFreq (s.rdr.fieldnameToNum f) w)).foldl (· + ·) 0)
  | .wildcard f t b =>
      .ok (((qwords s.rdr (.wildcard f t b)).map
        (fun w => s.rdr.docFreq (s.rdr.fieldnameToNum f) w)).foldl (· + ·) 0)
  | .fuzzy f t b ms pl =>
      .ok (((qwords s.rdr (.fuzzy f t b ms pl)).map
        (fun w => s.rdr.docFreq (s.rdr.fieldnameToNum f) w)).foldl (· + ·) 0)
  | .range f t e sx ex b =>
      .ok (((qwords s.rdr (.range f t e sx ex b)).map
        (fun w => s.rdr.docFreq (s.rdr.fieldnameToNum f) w)).foldl (· + ·) 0)
  | .variations f t b ws =>
      .ok (((qwords s.rdr (.variations f t b ws)).map
        (fun w => s.rdr.docFreq (s.rdr.fieldnameToNum f) w)).foldl (· + ·) 0)
  | .phrase f ws _ _ =>
      match ws.map (fun w => s.rdr.docFreq (s.rdr.fieldnameToNum f) w) with
      | [] => .error .valueError
      | k :: ks2 => .ok (ks2.foldl min k)
  | .every _ => .ok s.rdr.docCount
  | .null => .ok 0
  | .require _ _ _ => .error .notImplementedError
  | .andMaybe _ _ _ => .error .notImplementedError
  | .andNot _ _ _ => .error .notImplementedError

/-- The generator feeding `min`/`sum` in the compound estimates. -/
def estList (s : Searcher) : List Query → Except Err (List Nat)
  | [] => .ok []
  | q :: qs => do
      let k ← estimateSize s q
      let ks ← estList s qs
      .ok (k :: ks)

end

/-- `subs.sort(key=lambda q: q.estimate_size(searcher))`: Python's stable
ascending sort by precomputed keys. -/
def sortByKey (subs : List Query) (keys : List Nat) : List Query :=
  ((subs.zip keys).mergeSort (fun a b => a.2 ≤ b.2)).map Prod.fst

theorem qsizeList_map_fst_zip_le (l : List Query) (ks : List Nat) :
    qsizeList ((l.zip ks).map Prod.fst) ≤ qsizeList l := by
  induction l generalizing ks with
  | nil => simp [qsizeList]
  | cons c rest ih =>
    cases ks with
    | nil =>
      simp [List.zip_nil_right, qsizeList]
    | cons k ks2 =>
      have h2 := ih ks2
      simp only [List.zip, List.zipWith, List.map_cons, qsizeList] at h2 ⊢
      omega

theorem qsizeList_sortByKey_le (subs : List Query) (keys : List Nat) :
    qsizeList (sortByKey subs keys) ≤ qsizeList subs := by
  have hperm : ((subs.zip keys).mergeSort (fun a b => a.2 ≤ b.2)).Perm
      (subs.zip keys) := List.mergeSort_perm _ _
  have h2 : qsizeList (sortByKey subs keys) =
      qsizeList ((subs.zip keys).map Prod.fst) :=
    qsizeList_perm (hperm.map Prod.fst)
  rw [h2]
  exact qsizeList_map_fst_zip_le subs keys

/-- `Term.matcher`: `searcher.postings(fieldnum, text, exclude_docs)`
with `except TermNotFound: return NullMatcher()`.  The catch makes the
construction total. -/
def termMatcher (s : Searcher) (excl : Option (List Nat)) (f t : String) :
    Matcher :=
  match sPostings s (sFieldnameToNum s f) t excl with
  | .ok m => m
  | .error _ => .nullM

mutual

/-- `Query.matcher(searcher, exclude_docs)` per class.
`Term.matcher` catches `TermNotFound` and returns a `NullMatcher`.
`And`/`Or`/`DisjunctionMax` follow `CompoundQuery._matcher`: fold the
`Not` children into the exclusion vector (`_not_vector`), sort the
remaining children by estimated size, build their matchers against the
new exclusion vector, combine with a balanced tree of the class's binary
combinator and wrap with the boost when it is not 1.
`Not.matcher` ignores its `exclude_docs` argument entirely: it builds the
child's matcher *without* exclusions and wraps it in an
`InverseMatcher` over `doc_count_all` with the reader's deletions as
`missing`.  `MultiTerm.matcher` builds one `Term` matcher per expanded
word — its own `except TermNotFound` is unreachable because
`Term.matcher` already catches, so a missing word contributes a
`NullMatcher` — and combines them (`Or(matchers).matcher(searcher)`;
modelled from the spec as the union tree with the boost wrap, since the
source's reuse of `Or` over matcher objects is not well-typed).
`Phrase.matcher` returns `NullMatcher` when any word is missing,
otherwise intersects the word matchers (`make_tree` is called without a
matcher class in the source; the spec resolves it to intersection) and
wraps them in the positional matcher, raising `QueryError` when the
field stores no positions.  `Every`, `NullQuery`, `Require`, `AndMaybe`
and `AndNot` follow their own overrides. -/
def qmatcher (s : Searcher) (excl : Option (List Nat)) :
    Query → Except Err Matcher
  | .term f t _ => .ok (termMatcher s excl f t)
  | .and cs b => do
      let ev ← notVectorGo s (excl.getD []) ((cs.filter (fun q => q.isNot)).map Query.notInner)
      let keys ← estList s (cs.filter (fun q => !q.isNot))
      let ms ← qmatcherList s (some ev) (sortByKey (cs.filter (fun q => !q.isNot)) keys)
      let tree := makeTree .intersectionM ms
      .ok (if b = 1 then tree else .wrappingM tree b)
  | .or cs b _ => do
      let ev ← notVectorGo s (excl.getD []) ((cs.filter (fun q => q.isNot)).map Query.notInner)
      let keys ← estList s (cs.filter (fun q => !q.isNot))
      let ms ← qmatcherList s (some ev) (sortByKey (cs.filter (fun q => !q.isNot)) keys)
      let tree := makeTree .unionM ms
      .ok (if b = 1 then tree else .wrappingM tree b)
  | .disMax cs b _ => do
      let ev ← notVectorGo s (excl.getD []) ((cs.filter (fun q => q.isNot)).map Query.notInner)
      let keys ← estList s (cs.filter (fun q => !q.isNot))
      let ms ← qmatcherList s (some ev) (sortByKey (cs.filter (fun q => !q.isNot)) keys)
      let tree := makeTree .disMaxM ms
      .ok (if b = 1 then tree else .wrappingM tree b)
  | .not q _ => do
      let child ← qmatcher s none q
      .ok (.inverseM child s.rdr.docCountAll s.rdr.deleted)
  | .prefixQ f t b =>
      multiMatcher s excl f b (qwords s.rdr (.prefixQ f t b))
  | .wildcard f t b =>
      multiMatcher s excl f b (qwords s.rdr (.wildcard f t b))
  | .fuzzy f t b ms pl =>
      multiMatcher s excl f b (qwords s.rdr (.fuzzy f t b ms pl))
  | .range f t e sx ex b =>
      multiMatcher s excl f b (qwords s.rdr (.range f t e sx ex b))
  | .variations f t b ws =>
      multiMatcher s excl f b (qwords s.rdr (.variations f t b ws))
  | .phrase f ws slop _ =>
      let fn := sFieldnameToNum s f
      if ws.any (fun w => !s.rdr.containsNum (fn, w)) then .ok .nullM
      else do
        let wms ← ws.mapM (fun w => sPostings s fn w excl)
        let isect := makeTree .intersectionM wms
        if fn ∈ s.posFields then .ok (.postingPhraseM wms isect slop)
        else if fn ∈ s.vecFields then
          .ok (.vectorPhraseM (ws.map (fun w => s.rdr.postingList fn w)) isect slop)
        else .error .queryError
  | .every _ => .ok (.everyM s.rdr.docCountAll (excl.getD []))
  | .null => .ok .nullM
  | .require a c _ => do
      let ma ← qmatcher s excl a
      let mc ← qmatcher s excl c
      .ok (.requireM ma mc)
  | .andMaybe a c _ => do
      let ma ← qmatcher s excl a
      let mc ← qmatcher s excl c
      .ok (.andMaybeM ma mc)
  | .andNot p n _ => do
      let ev ← notVectorGo s (excl.getD []) [n]
      qmatcher s (some ev) p
termination_by q => 4 * qsize q + 1
decreasing_by
  · have h1 := qsizeList_notInner_le cs
    simp [qsize] <;> omega
  · have h1 := qsizeList_sortByKey_le (cs.filter (fun q => !q.isNot)) keys
    have h2 := qsizeList_filter_le (fun q => !q.isNot) cs
    simp [qsize] <;> omega
  · have h1 := qsizeList_notInner_le cs
    simp [qsize] <;> omega
  · have h1 := qsizeList_sortByKey_le (cs.filter (fun q => !q.isNot)) keys
    have h2 := qsizeList_filter_le (fun q => !q.isNot) cs
    simp [qsize] <;> omega
  · have h1 := qsizeList_notInner_le cs
    simp [qsize] <;> omega
  · have h1 := qsizeList_sortByKey_le (cs.filter (fun q => !q.isNot)) keys
    have h2 := qsizeList_filter_le (fun q => !q.isNot) cs
    simp [qsize] <;> omega
  · simp [qsize] <;> omega
  · simp [qsize] <;> omega
  · simp [qsize] <;> omega
  · simp [qsize] <;> omega
  · simp [qsize] <;> omega
  · simp [qsize, qsizeList] <;> omega
  · simp [qsize] <;> omega

/-- `[subquery.matcher(searcher, exclude_docs=exclude_docs) for subquery
in subs]`. -/
def qmatcherList (s : Searcher) (excl : Option (List Nat)) :
    List Query → Except Err (List Matcher)
  | [] => .ok []
  | q :: qs => do
      let m ← qmatcher s excl q
      let ms ← qmatcherList s excl qs
      .ok (m :: ms)
termination_by l => 4 * qsizeList l + 3
decreasing_by
  · simp [qsizeList] <;> omega
  · have := qsizeP s
    simp [qsizeList] <;> omega

/-- `MultiTerm.matcher`: one `Term` matcher per expanded word (each total,
so the `except TermNotFound` in the source is dead code and a missing
word contributes a `NullMatcher`); an empty expansion gives
`NullMatcher`, otherwise the matchers are combined
(`Or(matchers, boost=self.boost).matcher(searcher)`, modelled from the
spec as a union tree wrapped with the boost). -/
def multiMatcher (s : Searcher) (excl : Option (List Nat)) (f : String)
    (b : ℚ) (ws : List String) : Except Err Matcher :=
  let ms := ws.map (fun w => termMatcher s excl f w)
  if ms.isEmpty then .ok .nullM
  else
    let tree := makeTree .unionM ms
    .ok (if b = 1 then tree else .wrappingM tree b)

/-- `Query.docs(searcher, exclude_docs)`: drain the matcher's ids,
returning `[]` when the matcher construction raises `TermNotFound`;
`NullQuery.docs` returns `[]` directly; `Require.docs` delegates to
`And(subqueries).docs` and `AndMaybe.docs` to its first child's
`docs`. -/
def docsFn (s : Searcher) (excl : Option (List Nat)) :
    Query → Except Err (List Nat)
  | .null => .ok []
  | .require a c _ => docsFn s excl (.and [a, c] 1)
  | .andMaybe a _ _ => docsFn s excl a
  | q =>
      match qmatcher s excl q with
      | .ok m => .ok (allIds m)
      | .error .termNotFound => .ok []
      | .error e => .error e
termination_by q => 4 * qsize q + 2
decreasing_by
  · simp [qsize, qsizeList] <;> omega
  · simp [qsize] <;> omega
  · omega

/-- `_not_vector(searcher, notqueries, sourcevector)`: start from a copy
of the incoming exclusion vector (empty when it is `None`) and add the
documents of each `Not` subquery (`nquery.docs(searcher)`, with no
exclusions). -/
def notVectorGo (s : Searcher) (acc : List Nat) :
    List Query → Except Err (List Nat)
  | [] => .ok acc
  | nq :: rest => do
      let ids ← docsFn s none nq
      notVectorGo s (acc ++ ids) rest
termination_by l => 4 * qsizeList l + 3
decreasing_by
  · simp [qsizeList] <;> omega
  · have := qsizeP s
    simp [qsizeList] <;> omega

end

/-! ## Segment readers and TermInfo merging (reading.py) -/

/-- Statistics about a term (`reading.TermInfo`): total weight, document
frequency, min/max field length, max per-document weight, min/max doc id.
`minlength` and `minid` default to `None` in the source, so they are
`Option Nat` here; Python-2 floats become `ℚ`. -/
structure TermInfo where
  weight : ℚ
  df : Nat
  minlength : Option Nat
  maxlength : Nat
  maxweight : ℚ
  minid : Option Nat
  maxid : Nat
deriving DecidableEq

/-- A segment reader, reduced to its term dictionary: the terms it
contains, each with its `TermInfo`.  `term in r` is a dictionary lookup. -/
def segTermInfo (r : List ((String × String) × TermInfo))
    (t : String × String) : Option TermInfo :=
  (r.find? (fun p => p.1 = t)).map (fun p => p.2)

/-- `MultiReader`: sub-readers with their base document offsets. -/
structure MultiReader where
  readers : List (List ((String × String) × TermInfo))
  docOffsets : List Nat

/-- Python `sum` over rationals (starts from 0). -/
def sumQ (l : List ℚ) : ℚ := l.foldl (fun a b => a + b) 0

/-- Python `sum` over naturals (starts from 0). -/
def sumN (l : List Nat) : Nat := l.foldl (fun a b => a + b) 0

/-- Python `min` over a nonempty list of naturals, seeded with its head. -/
def minN (x : Nat) (l : List Nat) : Nat := l.foldl min x

/-- Python `max` over a nonempty list of naturals, seeded with its head. -/
def maxN (x : Nat) (l : List Nat) : Nat := l.foldl max x

/-- Python `max` over a nonempty list of rationals, seeded with its head. -/
def maxQ (x : ℚ) (l : List ℚ) : ℚ := l.foldl max x

/-- Python-2 `min` of two possibly-`None` values: `None` sorts below every
integer, so it is absorbing. -/
def py2min (a b : Option Nat) : Option Nat :=
  match a, b with
  | none, _ => none
  | _, none => none
  | some x, some y => some (min x y)

/-- Python-2 `min` over a nonempty list of possibly-`None` values. -/
def pyMinList (l : List (Option Nat)) : Option Nat :=
  match l with
  | [] => none
  | x :: xs => xs.foldl py2min x

/-- `MultiReader.term_info` (reading.py 1001-1029).  Collects the
`(TermInfo, offset)` pairs of the sub-readers containing the term; raises
`TermNotFound` if there are none; for a single pair returns it with
`minid`/`maxid` shifted by the offset (`None + offset` is a `TypeError`);
otherwise sums weight and doc frequency, takes min/max of the length and
weight statistics, and min/max of the offset-shifted doc ids. -/
def multiTermInfo (mr : MultiReader) (fieldname text : String) :
    Except Err TermInfo :=
  let term := (fieldname, text)
  let tis := (mr.readers.zip mr.docOffsets).filterMap
    (fun p => (segTermInfo p.1 term).map (fun ti => (ti, p.2)))
  match tis with
  | [] => .error .termNotFound
  | [(ti, offset)] =>
      match ti.minid with
      | none => .error .typeError
      | some m =>
          .ok { ti with minid := some (m + offset), maxid := ti.maxid + offset }
  | (t1, o1) :: rest =>
      let w := sumQ (((t1, o1) :: rest).map (fun p => p.1.weight))
      let df := sumN (((t1, o1) :: rest).map (fun p => p.1.df))
      let ml := pyMinList (((t1, o1) :: rest).map (fun p => p.1.minlength))
      let xl := maxN t1.maxlength (rest.map (fun p => p.1.maxlength))
      let xw := maxQ t1.maxweight (rest.map (fun p => p.1.maxweight))
      if ((t1, o1) :: rest).any (fun p => p.1.minid.isNone) then
        .error .typeError
      else
        let mid := minN (t1.minid.getD 0 + o1)
          (rest.map (fun p => p.1.minid.getD 0 + p.2))
        let xid := maxN (t1.maxid + o1) (rest.map (fun p => p.1.maxid + p.2))
        .ok ⟨w, df, ml, xl, xw, some mid, xid⟩

/-! # Theorems -/

theorem isNull_iff (q : Query) : q.isNull = true ↔ q = .null := by
  cases q <;> simp [Query.isNull]

/-! ## C1: normalization idempotence -/

/-- C1 (counterexample): normalization is *not* idempotent.  For
`q = And([And([Term(f,a), Term(f,b)]), Term(f,a)])`, the first
`normalize` splices the inner `And`'s children without recording them in
`seenterms`, so the duplicate sibling `Term(f,a)` survives; the second
`normalize` then removes it, yielding a different tree. -/
theorem c1_counterexample :
    normalize (normalize
        (.and [.and [.term "f" "a" 1, .term "f" "b" 1] 1, .term "f" "a" 1] 1)) ≠
      normalize (.and [.and [.term "f" "a" 1, .term "f" "b" 1] 1, .term "f" "a" 1] 1) := by
  intro h
  have h2 : (Query.and [.term "f" "a" 1, .term "f" "b" 1] 1) =
      (Query.and [.term "f" "a" 1, .term "f" "b" 1, .term "f" "a" 1] 1) := h
  simp at h2

/-- C1 (amended): for every `And`/`Or` whose children include a nested
compound of the same variant containing `Term` children that duplicate a
sibling `Term`, the first application of `normalize` splices the nested
`Term`s without recording them in the duplicate-elimination set, so the
duplicate sibling survives; a second application removes it, so
`normalize(normalize(q)) ≠ normalize(q)`. -/
theorem c1_not_idempotent (f g a b2 : String) (bo bi ba bb ba2 : ℚ)
    (h : ¬(g = f ∧ b2 = a)) :
    normalize (.and [.and [.term f a ba, .term g b2 bb] bi, .term f a ba2] bo) =
        .and [.term f a ba, .term g b2 bb, .term f a ba2] bo ∧
      normalize (normalize
          (.and [.and [.term f a ba, .term g b2 bb] bi, .term f a ba2] bo)) =
        .and [.term f a ba, .term g b2 bb] bo ∧
      normalize (normalize
          (.and [.and [.term f a ba, .term g b2 bb] bi, .term f a ba2] bo)) ≠
        normalize (.and [.and [.term f a ba, .term g b2 bb] bi, .term f a ba2] bo) := by
  have h1 : normalize (.and [.and [.term f a ba, .term g b2 bb] bi, .term f a ba2] bo) =
      .and [.term f a ba, .term g b2 bb, .term f a ba2] bo := by
    simp [normalize, normLoop, finishCompound, CKind.mk, CKind.sameClass, Query.isNull, h]
  have h2 : normalize (.and [.term f a ba, .term g b2 bb, .term f a ba2] bo) =
      .and [.term f a ba, .term g b2 bb] bo := by
    simp [normalize, normLoop, finishCompound, CKind.mk, CKind.sameClass, Query.isNull, h]
  refine ⟨h1, by rw [h1, h2], ?_⟩
  rw [h1, h2]
  simp

/-- C1 (witness for the amended theorem at a concrete input). -/
theorem c1_not_idempotent_witness :
    normalize (.and [.and [.term "f" "a" 1, .term "f" "b" 1] 1, .term "f" "a" 1] 1) =
        .and [.term "f" "a" 1, .term "f" "b" 1, .term "f" "a" 1] 1 ∧
      normalize (normalize
          (.and [.and [.term "f" "a" 1, .term "f" "b" 1] 1, .term "f" "a" 1] 1)) =
        .and [.term "f" "a" 1, .term "f" "b" 1] 1 ∧
      normalize (normalize
          (.and [.and [.term "f" "a" 1, .term "f" "b" 1] 1, .term "f" "a" 1] 1)) ≠
        normalize (.and [.and [.term "f" "a" 1, .term "f" "b" 1] 1, .term "f" "a" 1] 1) :=
  c1_not_idempotent "f" "f" "a" "b" 1 1 1 1 1 (by simp)

/-! ## C6: Null absorption in the binary queries -/

/-- C6: `AndNot.normalize`, `AndMaybe.normalize` and `Require.normalize`
absorb `NullQuery`: `AndNot(Null, x)` and `AndMaybe(Null, x)` normalize
to `NullQuery`; `AndNot(x, Null)` and `AndMaybe(x, Null)` normalize to
`x.normalize()`; `Require(x, Null)` normalizes to `NullQuery`. -/
theorem c6_null_absorption (x : Query) (b : ℚ) :
    normalize (.andNot .null x b) = .null ∧
      normalize (.andNot x .null b) = normalize x ∧
      normalize (.andMaybe .null x b) = .null ∧
      normalize (.andMaybe x .null b) = normalize x ∧
      normalize (.require x .null b) = .null := by
  refine ⟨?_, ?_, ?_, ?_, ?_⟩
  · simp [normalize, Query.isNull]
  · by_cases hx : (normalize x).isNull = true
    · have he := (isNull_iff _).mp hx
      simp [normalize, he, Query.isNull]
    · simp only [normalize]
      rw [if_neg hx]
      simp [normalize, Query.isNull]
  · simp [normalize, Query.isNull]
  · by_cases hx : (normalize x).isNull = true
    · have he := (isNull_iff _).mp hx
      simp [normalize, he, Query.isNull]
    · simp only [normalize]
      rw [if_neg hx]
      simp [normalize, Query.isNull]
  · simp [normalize, Query.isNull]

/-! ## C5: Wildcard normalization -/

/-- In a list ending in an element satisfying `p`, the first index
satisfying `p` is the last position iff no earlier element satisfies
`p`. -/
theorem findIdx_eq_length_sub_one_iff {α : Type} (p : α → Bool) :
    ∀ (l : List α) (x : α), p x = true → l.getLast? = some x →
      (l.findIdx p = l.length - 1 ↔ ∀ a ∈ l.dropLast, p a = false)
  | [], x, _, hlast => by simp at hlast
  | [a], x, hx, hlast => by
      simp only [List.getLast?_singleton, Option.some.injEq] at hlast
      subst hlast
      simp [List.findIdx_cons, hx]
  | a :: b :: l, x, hx, hlast => by
      rw [List.getLast?_cons_cons] at hlast
      have ih := findIdx_eq_length_sub_one_iff p (b :: l) x hx hlast
      by_cases hpa : p a = true
      · constructor
        · intro hfind
          simp [List.findIdx_cons, hpa] at hfind
        · intro hall
          have : a ∈ (a :: b :: l).dropLast := by simp [List.dropLast]
          have := hall a this
          rw [hpa] at this
          exact absurd this (by simp)
      · rw [Bool.not_eq_true] at hpa
        have hfc : (a :: b :: l).findIdx p = (b :: l).findIdx p + 1 := by
          simp [List.findIdx_cons, hpa]
        have hdl : (a :: b :: l).dropLast = a :: (b :: l).dropLast := by
          simp [List.dropLast]
        rw [hfc, hdl]
        constructor
        · intro hfind hc hmem
          rcases List.mem_cons.mp hmem with hca | hca
          · rw [hca]; exact hpa
          · refine (ih.mp ?_) hc hca
            simp only [List.length_cons] at hfind ⊢
            omega
        · intro hall
          have : (b :: l).findIdx p = (b :: l).length - 1 :=
            ih.mpr (fun c hc => hall c (List.mem_cons_of_mem a hc))
          simp only [List.length_cons] at this ⊢
          omega

/-- C5: `Wildcard.normalize` cases.  The glob `"*"` normalizes to `Every`
(with the wildcard's boost); a glob containing neither `*` nor `?`
normalizes to `Term(fieldname, text, boost)`; a glob (other than `"*"`)
whose only metacharacter is a single trailing unescaped `*` normalizes to
`Prefix(fieldname, text-without-the-star, boost)`; any other glob (one
containing a metacharacter but not of the trailing-star shape, e.g.
`"a*b"`) is returned unchanged. -/
theorem c5_wildcard_normalize (f t : String) (b : ℚ) :
    normalize (.wildcard f "*" b) = .every b ∧
      ('*' ∉ t.data → '?' ∉ t.data → normalize (.wildcard f t b) = .term f t b) ∧
      (t ≠ "*" → '?' ∉ t.data → t.data.getLast? = some '*' →
        '*' ∉ t.data.dropLast →
        (t.length < 2 ∨ t.data[t.length - 2]? ≠ some '\\') →
        normalize (.wildcard f t b) = .prefixQ f (String.mk t.data.dropLast) b) ∧
      (t ≠ "*" → ('*' ∈ t.data ∨ '?' ∈ t.data) →
        ¬('?' ∉ t.data ∧ t.data.getLast? = some '*' ∧ '*' ∉ t.data.dropLast ∧
          (t.length < 2 ∨ t.data[t.length - 2]? ≠ some '\\')) →
        normalize (.wildcard f t b) = .wildcard f t b) := by
  have hlen : t.length = t.data.length := rfl
  refine ⟨by simp [normalize, wildNormalize], ?_, ?_, ?_⟩
  · intro h1 h2
    have hne : t ≠ "*" := by
      intro he; subst he; simp at h1
    simp [normalize, wildNormalize, hne, h1, h2]
  · intro hne h1 h2 h3 h4
    have hstar : '*' ∈ t.data := by
      have h5 := List.dropLast_append_getLast? (l := t.data) '*' (by simp [h2])
      rw [← h5]
      simp
    have hfind : t.data.findIdx (fun c => c = '*') = t.length - 1 := by
      rw [hlen]
      refine (findIdx_eq_length_sub_one_iff _ t.data '*' (by simp) h2).mpr ?_
      intro a ha
      simp only [decide_eq_false_iff_not]
      intro hc; subst hc; exact h3 ha
    simp [normalize, wildNormalize, hne, hstar, h1, h2, hfind, h4]
  · intro hne hmeta hnot
    have hcond : ¬('?' ∉ t.data ∧ t.data.getLast? = some '*' ∧
        t.data.findIdx (fun c => c = '*') = t.length - 1 ∧
        (t.length < 2 ∨ t.data[t.length - 2]? ≠ some '\\')) := by
      rintro ⟨hq, hlast, hfind, hesc⟩
      refine hnot ⟨hq, hlast, ?_, hesc⟩
      rw [hlen] at hfind
      have := (findIdx_eq_length_sub_one_iff _ t.data '*' (by simp) hlast).mp hfind
      intro hmem
      have := this '*' hmem
      simp at this
    have h2 : ¬('*' ∉ t.data ∧ '?' ∉ t.data) := by
      rcases hmeta with hm | hm
      · rintro ⟨ha, _⟩; exact ha hm
      · rintro ⟨_, ha⟩; exact ha hm
    simp only [normalize, wildNormalize, if_neg hne, if_neg h2, if_neg hcond]

/-- C5 (witness): the literal cases from the spec, `"abc"` → `Term`,
`"abc*"` → `Prefix("abc")`, `"a*b"` stays `Wildcard`. -/
theorem c5_wildcard_normalize_witness :
    normalize (.wildcard "f" "abc" 1) = .term "f" "abc" 1 ∧
      normalize (.wildcard "f" "abc*" 1) = .prefixQ "f" "abc" 1 ∧
      normalize (.wildcard "f" "a*b" 1) = .wildcard "f" "a*b" 1 :=
  ⟨(c5_wildcard_normalize "f" "abc" 1).2.1 (by decide) (by decide),
   (c5_wildcard_normalize "f" "abc*" 1).2.2.1 (by decide) (by decide) (by decide)
     (by decide) (by decide),
   (c5_wildcard_normalize "f" "a*b" 1).2.2.2 (by decide) (by decide) (by decide)⟩

/-! ## C9: a single surviving child replaces the whole compound -/

theorem noNestList_iff (l : List Query) :
    noNestList l = true ↔ ∀ s ∈ l, noNest s = true := by
  induction l with
  | nil => simp [noNestList]
  | cons q qs ih => simp [noNestList, ih]

theorem qsize_pos (q : Query) : 1 ≤ qsize q := by
  cases q <;> simp [qsize] <;> omega

theorem qsize_le_of_mem {q : Query} {cs : List Query} (h : q ∈ cs) :
    qsize q ≤ qsizeList cs := by
  induction cs with
  | nil => simp at h
  | cons c rest ih =>
    rcases List.mem_cons.mp h with hc | hc
    · subst hc; simp [qsizeList]
    · have := ih hc; simp [qsizeList]; omega

theorem normLoop_eq_nil_of_filter_empty {k : CKind} {cs : List Query}
    (h : (cs.filter (fun q => !q.isNull)).isEmpty = true)
    (seen : List (String × String)) : normLoop k cs seen = [] := by
  induction cs generalizing seen with
  | nil => simp [normLoop]
  | cons c rest ih =>
    rw [List.filter_cons] at h
    by_cases hc : (!c.isNull) = true
    · rw [if_pos hc] at h; simp [List.isEmpty] at h
    · rw [if_neg hc] at h
      have hcn : c = Query.null := (isNull_iff c).mp (by simpa using hc)
      subst hcn
      show normLoop k rest seen = []
      exact ih h seen

/-- Extracting the no-nesting facts about the direct children of a
same-class compound from `noNest`. -/
theorem noNest_children {k : CKind} {q : Query} {cs2 : List Query}
    (hq : noNest q = true) (hk : CKind.sameClass k q = some cs2) :
    ∀ s ∈ cs2, noNest s = true ∧ CKind.sameClass k s = none := by
  intro s hs
  cases k <;> cases q <;> simp [CKind.sameClass] at hk <;> subst hk <;>
    simp [noNest, noNestList_iff, List.all_eq_true, Option.isNone_iff_eq_none] at hq <;>
    exact ⟨hq.2 s hs, hq.1 s hs⟩

/-- The key invariant behind spec invariant 3: the output of `normalize`
satisfies `noNest`, and every element produced by the
`CompoundQuery.normalize` loop of kind `k` satisfies `noNest` and is not
itself a compound of kind `k`. -/
theorem normalize_noNest_strong :
    ∀ n : Nat,
      (∀ q, qsize q ≤ n → noNest (normalize q) = true) ∧
      (∀ (k : CKind) (cs : List Query) (seen : List (String × String)),
        qsizeList cs ≤ n → ∀ s ∈ normLoop k cs seen,
          noNest s = true ∧ CKind.sameClass k s = none) := by
  intro n
  induction n using Nat.strong_induction_on with
  | _ n ih =>
  have P1 : ∀ q, qsize q ≤ n → noNest (normalize q) = true := by
    intro q hq
    match q with
    | .term f t b => simp [normalize, noNest]
    | .prefixQ f t b => simp [normalize, noNest]
    | .fuzzy f t b ms pl => simp [normalize, noNest]
    | .variations f t b ws => simp [normalize, noNest]
    | .every b => simp [normalize, noNest]
    | .null => simp [normalize, noNest]
    | .wildcard f t b =>
        simp only [normalize, wildNormalize]
        split <;> try simp [noNest]
        split <;> try simp [noNest]
        split <;> simp [noNest]
    | .range f s e sx ex b =>
        simp only [normalize]
        split <;> simp [noNest]
    | .phrase f ws sl b =>
        simp only [normalize]
        match ws with
        | [] => simp [noNest]
        | [w] => simp [noNest]
        | w1 :: w2 :: ws2 => simp [noNest]
    | .not q2 b =>
        have hsz : qsize q2 ≤ n - 1 ∧ n - 1 < n := by
          simp [qsize] at hq
          have := qsize_pos q2
          omega
        have hrec := (ih (n - 1) hsz.2).1 q2 hsz.1
        simp only [normalize]
        by_cases h1 : (normalize q2).isNull = true
        · simp [h1, noNest]
        · simp only [h1, if_false, Bool.false_eq_true]
          simpa [noNest] using hrec
    | .require a c b =>
        have hsz : qsize a ≤ n - 1 ∧ qsize c ≤ n - 1 ∧ n - 1 < n := by
          simp [qsize] at hq
          have := qsize_pos a
          omega
        have hra := (ih (n - 1) hsz.2.2).1 a hsz.1
        have hrc := (ih (n - 1) hsz.2.2).1 c hsz.2.1
        simp only [normalize]
        by_cases h1 : (normalize a).isNull = true
        · simp [h1, noNest]
        · by_cases h2 : (normalize c).isNull = true
          · simp [h1, h2, noNest, hra]
          · simp only [h1, h2, Bool.false_eq_true, if_false, Bool.or_self,
              Bool.or_false, Bool.false_or]
            simp [noNest, hra, hrc]
    | .andMaybe a c b =>
        have hsz : qsize a ≤ n - 1 ∧ qsize c ≤ n - 1 ∧ n - 1 < n := by
          simp [qsize] at hq
          have := qsize_pos a
          omega
        have hra := (ih (n - 1) hsz.2.2).1 a hsz.1
        have hrc := (ih (n - 1) hsz.2.2).1 c hsz.2.1
        simp only [normalize]
        by_cases h1 : (normalize a).isNull = true
        · simp [h1, noNest]
        · by_cases h2 : (normalize c).isNull = true
          · simp [h1, h2, noNest, hra]
          · simp only [h1, h2, Bool.false_eq_true, if_false, Bool.or_self,
              Bool.or_false, Bool.false_or]
            simp [noNest, hra, hrc]
    | .andNot a c b =>
        have hsz : qsize a ≤ n - 1 ∧ qsize c ≤ n - 1 ∧ n - 1 < n := by
          simp [qsize] at hq
          have := qsize_pos a
          omega
        have hra := (ih (n - 1) hsz.2.2).1 a hsz.1
        have hrc := (ih (n - 1) hsz.2.2).1 c hsz.2.1
        simp only [normalize]
        by_cases h1 : (normalize a).isNull = true
        · simp [h1, noNest]
        · by_cases h2 : (normalize c).isNull = true
          · simp [h1, h2, noNest, hra]
          · simp only [h1, h2, Bool.false_eq_true, if_false, Bool.or_self,
              Bool.or_false, Bool.false_or]
            simp [noNest, hra, hrc]
    | .and cs b =>
        have hsz : qsizeList cs ≤ n - 1 ∧ n - 1 < n := by
          simp [qsize] at hq
          omega
        have key := (ih (n - 1) hsz.2).2 .kAnd cs [] hsz.1
        simp only [normalize]
        by_cases hf : ((cs.filter (fun q => !q.isNull)).isEmpty : Bool) = true
        · simp [hf, noNest]
        · rw [if_neg (by simpa using hf)]
          cases hL : normLoop .kAnd cs [] with
          | nil => simp [finishCompound, noNest]
          | cons s rest =>
            cases rest with
            | nil =>
                simp only [finishCompound]
                exact (key s (by rw [hL]; simp)).1
            | cons s2 rest2 =>
                simp only [finishCompound, CKind.mk]
                rw [hL] at key
                simp only [noNest, Bool.and_eq_true, List.all_eq_true,
                  noNestList_iff]
                exact ⟨fun x hx => by
                    rw [Option.isNone_iff_eq_none]
                    exact (key x hx).2,
                  fun x hx => (key x hx).1⟩
    | .or cs b mm =>
        have hsz : qsizeList cs ≤ n - 1 ∧ n - 1 < n := by
          simp [qsize] at hq
          omega
        have key := (ih (n - 1) hsz.2).2 .kOr cs [] hsz.1
        simp only [normalize]
        by_cases hf : ((cs.filter (fun q => !q.isNull)).isEmpty : Bool) = true
        · simp [hf, noNest]
        · rw [if_neg (by simpa using hf)]
          cases hL : normLoop .kOr cs [] with
          | nil => simp [finishCompound, noNest]
          | cons s rest =>
            cases rest with
            | nil =>
                simp only [finishCompound]
                have hno := (key s (by rw [hL]; simp)).1
                have hnone := (key s (by rw [hL]; simp)).2
                cases s <;> simp [CKind.sameClass] at hnone ⊢ <;>
                  simpa [noNest] using hno
            | cons s2 rest2 =>
                simp only [finishCompound, CKind.mk]
                rw [hL] at key
                simp only [noNest, Bool.and_eq_true, List.all_eq_true,
                  noNestList_iff]
                exact ⟨fun x hx => by
                    rw [Option.isNone_iff_eq_none]
                    exact (key x hx).2,
                  fun x hx => (key x hx).1⟩
    | .disMax cs b tb =>
        have hsz : qsizeList cs ≤ n - 1 ∧ n - 1 < n := by
          simp [qsize] at hq
          omega
        have key := (ih (n - 1) hsz.2).2 .kDMax cs [] hsz.1
        simp only [normalize]
        by_cases hf : ((cs.filter (fun q => !q.isNull)).isEmpty : Bool) = true
        · simp [hf, noNest]
        · rw [if_neg (by simpa using hf)]
          cases hL : normLoop .kDMax cs [] with
          | nil => simp [finishCompound, noNest]
          | cons s rest =>
            cases rest with
            | nil =>
                simp only [finishCompound]
                have hno := (key s (by rw [hL]; simp)).1
                have hnone := (key s (by rw [hL]; simp)).2
                cases s <;> simp [CKind.sameClass] at hnone ⊢ <;>
                  simpa [noNest] using hno
            | cons s2 rest2 =>
                simp only [finishCompound, CKind.mk]
                rw [hL] at key
                simp only [noNest, Bool.and_eq_true, List.all_eq_true,
                  noNestList_iff]
                exact ⟨fun x hx => by
                    rw [Option.isNone_iff_eq_none]
                    exact (key x hx).2,
                  fun x hx => (key x hx).1⟩
  refine ⟨P1, ?_⟩
  intro k cs
  induction cs with
  | nil => intro seen _ s hs; simp [normLoop] at hs
  | cons c rest ihl =>
    intro seen hcs s hs
    have hqc : qsize c ≤ n := le_trans (qsize_le_of_mem (by simp)) hcs
    have hrest : qsizeList rest ≤ n := by
      simp [qsizeList] at hcs
      have := qsize_pos c
      omega
    have hstep := P1 c hqc
    rw [normLoop] at hs
    cases hcn : normalize c
    case null =>
      simp only [hcn] at hs
      exact ihl seen hrest s hs
    case term f t b2 =>
      simp only [hcn] at hs
      split at hs
      · exact ihl seen hrest s hs
      · rcases List.mem_cons.mp hs with hmem | hmem
        · subst hmem
          exact ⟨by simp [noNest], by cases k <;> rfl⟩
        · exact ihl _ hrest s hmem
    all_goals (
      rw [hcn] at hstep
      simp only [hcn] at hs
      split at hs
      · rename_i cs2 heq
        rcases List.mem_append.mp hs with hmem | hmem
        · exact noNest_children hstep heq s hmem
        · exact ihl seen hrest s hmem
      · rename_i heq
        rcases List.mem_cons.mp hs with hmem | hmem
        · subst hmem
          exact ⟨hstep, heq⟩
        · exact ihl seen hrest s hmem)

/-- C9: for every `And`, `Or` or `DisjunctionMax` whose normalization loop
leaves exactly one surviving child, `normalize` returns that normalized
child itself — the compound's own `boost` (and, for `Or`, its
`minmatch`; for `DisjunctionMax`, its `tiebreak`) is discarded rather
than applied to or recorded on the result. -/
theorem c9_single_survivor (cs : List Query) (s : Query) (bA bO bD tb : ℚ)
    (mm : Nat) :
    (normLoop .kAnd cs [] = [s] → normalize (.and cs bA) = s) ∧
      (normLoop .kOr cs [] = [s] → normalize (.or cs bO mm) = s) ∧
      (normLoop .kDMax cs [] = [s] → normalize (.disMax cs bD tb) = s) := by
  have hfilter : ∀ k : CKind, normLoop k cs [] = [s] →
      ((cs.filter (fun q => !q.isNull)).isEmpty : Bool) ≠ true := by
    intro k hL hf
    rw [normLoop_eq_nil_of_filter_empty hf []] at hL
    exact List.noConfusion hL
  refine ⟨?_, ?_, ?_⟩
  · intro hL
    simp only [normalize]
    rw [if_neg (hfilter .kAnd hL), hL]
    rfl
  · intro hL
    have hnone :=
      ((normalize_noNest_strong (qsizeList cs)).2 .kOr cs [] le_rfl s
        (by rw [hL]; simp)).2
    simp only [normalize]
    rw [if_neg (hfilter .kOr hL), hL]
    cases s <;> simp [CKind.sameClass, finishCompound] at hnone ⊢
  · intro hL
    have hnone :=
      ((normalize_noNest_strong (qsizeList cs)).2 .kDMax cs [] le_rfl s
        (by rw [hL]; simp)).2
    simp only [normalize]
    rw [if_neg (hfilter .kDMax hL), hL]
    cases s <;> simp [CKind.sameClass, finishCompound] at hnone ⊢

/-- C9 (witness): concrete single-survivor compounds; boost 2, minmatch 3
and tiebreak 5 are all discarded. -/
theorem c9_single_survivor_witness :
    normalize (.and [.term "f" "a" 1, .null] 2) = .term "f" "a" 1 ∧
      normalize (.or [.term "f" "a" 1, .null] 2 3) = .term "f" "a" 1 ∧
      normalize (.disMax [.term "f" "a" 1, .null] 2 5) = .term "f" "a" 1 :=
  ⟨(c9_single_survivor [.term "f" "a" 1, .null] (.term "f" "a" 1) 2 2 2 5 3).1 rfl,
   (c9_single_survivor [.term "f" "a" 1, .null] (.term "f" "a" 1) 2 2 2 5 3).2.1 rfl,
   (c9_single_survivor [.term "f" "a" 1, .null] (.term "f" "a" 1) 2 2 2 5 3).2.2 rfl⟩

/-! ## C2: Phrase equality -/

/-- C2: `Phrase.__eq__` is *not* structural equality.  For any two `Phrase`
queries with the same fieldname — in particular a `Phrase` compared with
itself — the comparison reads the nonexistent attribute `other.word` and
raises `AttributeError`; it can never return `True`.  (For a different
fieldname, or a non-`Phrase` other, the short-circuit returns `False`.) -/
theorem c2_phrase_eq_raises (f : String) (ws : List String) (sl : Nat)
    (b : ℚ) :
    phraseEqCode f ws sl b (.phrase f ws sl b) = .error .attributeError ∧
      ∀ other : Query, phraseEqCode f ws sl b other ≠ .ok true := by
  refine ⟨by simp [phraseEqCode], ?_⟩
  intro other
  cases other <;> simp only [phraseEqCode] <;> try simp
  split <;> simp

/-- C2 (evaluation at the failing input): `Phrase("f", ["a","b"])` compared
with an identical `Phrase` raises `AttributeError` instead of returning
`True`. -/
theorem c2_phrase_eq_raises_witness :
    phraseEqCode "f" ["a", "b"] 1 1 (.phrase "f" ["a", "b"] 1 1) =
      .error .attributeError :=
  (c2_phrase_eq_raises "f" ["a", "b"] 1 1).1

/-! ## C7: all_terms on multi-term leaves -/

/-- C7 (counterexample): `FuzzyTerm._all_terms` overrides the `MultiTerm`
default and *does* add its `(fieldname, text)` pair to the term set, and
`Variations._all_terms` adds the bare text string rather than a
`(field, text)` pair. -/
theorem c7_counterexample :
    allTerms (.fuzzy "f" "a" 1 (1/2) 1) true = some {TermItem.pair "f" "a"} ∧
      allTerms (.fuzzy "f" "a" 1 (1/2) 1) true ≠ some (∅ : Finset TermItem) ∧
      allTerms (.variations "f" "a" 1 ["as"]) true = some {TermItem.bare "a"} := by
  refine ⟨by decide, ?_, by decide⟩
  intro h
  have h2 : some ({TermItem.pair "f" "a"} : Finset TermItem) =
      some (∅ : Finset TermItem) := by
    rw [← h]; decide
  simp at h2

/-- C7 (amended): `all_terms` adds nothing for the index-bound multi-term
leaves `Prefix`, `Wildcard` and `TermRange`; but `FuzzyTerm` adds its
`(fieldname, text)` pair, and `Variations` adds the bare user-supplied
text (a string, not a `(field, text)` pair), so the resulting set can
contain both tuples and bare strings. -/
theorem c7_all_terms_leaves (f t s e : String) (b ms : ℚ) (pl : Nat)
    (sx ex : Bool) (ws : List String) (ph : Bool) (ts : Finset TermItem) :
    allTermsAux ph (.prefixQ f t b) ts = some ts ∧
      allTermsAux ph (.wildcard f t b) ts = some ts ∧
      allTermsAux ph (.range f s e sx ex b) ts = some ts ∧
      allTermsAux ph (.fuzzy f t b ms pl) ts = some (insert (.pair f t) ts) ∧
      allTermsAux ph (.variations f t b ws) ts = some (insert (.bare t) ts) :=
  ⟨rfl, rfl, rfl, rfl, rfl⟩

/-! ## C3: compound simplification and its Not-splitting branch -/

/-- C3: the claimed rewrite `X ∧ ¬Y₁ ∧ … ∧ ¬Yₙ ⇒ AndNot(X, Or(Y₁,…,Yₙ))`
is never performed: for every `And`/`Or` with at least one non-`Not` child
and at least one `Not` child, once the non-`Not` children simplify without
error, `simplify(reader)` raises `TypeError` — the source calls
`Or(nots).normalize().simplify()` with no `ixreader` argument
(query.py 320) — instead of returning an `AndNot`.  Only the claim's
final clause holds: with no non-`Not` children the result is
`NullQuery`. -/
theorem c3_simplify_raises (r : Reader) (cs ds : List Query) (b : ℚ)
    (mm : Nat)
    (hsubs : cs.filter (fun q => !q.isNot) ≠ [])
    (hnots : cs.filter (fun q => q.isNot) ≠ [])
    (ss : List Query)
    (hss : simplifyList r (cs.filter (fun q => !q.isNot)) = .ok ss)
    (hds : ds.filter (fun q => !q.isNot) = []) :
    simplify r (.and cs b) = .error .typeError ∧
      simplify r (.or cs b mm) = .error .typeError ∧
      simplify r (.and ds b) = .ok .null ∧
      simplify r (.or ds b mm) = .ok .null := by
  have hs2 : ¬((cs.filter (fun q => !q.isNot)).isEmpty = true) :=
    fun h => hsubs (List.isEmpty_iff.mp h)
  have hn2 : ¬(((cs.filter (fun q => q.isNot)).map Query.notInner).isEmpty = true) := by
    intro h
    rcases List.map_eq_nil_iff.mp (List.isEmpty_iff.mp h) with h2
    exact hnots h2
  have hd2 : (ds.filter (fun q => !q.isNot)).isEmpty = true :=
    List.isEmpty_iff.mpr hds
  refine ⟨?_, ?_, ?_, ?_⟩
  · rw [simplify]
    simp only [dif_neg hs2, dif_neg hn2, hss]
    rfl
  · rw [simplify]
    simp only [dif_neg hs2, dif_neg hn2, hss]
    rfl
  · rw [simplify]
    simp only [dif_pos hd2]
  · rw [simplify]
    simp only [dif_pos hd2]

/-- C3 (witness): a concrete `And` with one positive and one `Not` child,
against the trivial reader, raises `TypeError`; with the positive child
removed it yields `NullQuery`. -/
theorem c3_simplify_raises_witness :
    simplify ⟨[], [], 0, []⟩
        (.and [.term "f" "a" 1, .not (.term "f" "b" 1) 1] 1) =
      .error .typeError ∧
      simplify ⟨[], [], 0, []⟩ (.and [.not (.term "f" "b" 1) 1] 1) =
        .ok .null := by
  have h := c3_simplify_raises ⟨[], [], 0, []⟩
      [.term "f" "a" 1, .not (.term "f" "b" 1) 1]
      [.not (.term "f" "b" 1) 1] 1 0
      (by simp [Query.isNot]) (by simp [Query.isNot])
      [.term "f" "a" 1]
      (by simp [simplifyList, simplify, Query.isNot]; rfl) (by simp [Query.isNot])
  exact ⟨h.1, h.2.2.1⟩

/-! ## C10: Not.matcher ignores exclude_docs -/

/-- C10: `Not.matcher` is independent of its `exclude_docs` argument: for
any two exclusion sets the same matcher is built — an `InverseMatcher`
over the child's *unexcluded* matcher, with universe `doc_count_all` and
the reader's deletions as `missing`. -/
theorem c10_not_matcher_ignores_exclude (s : Searcher)
    (e1 e2 : Option (List Nat)) (q : Query) (b : ℚ) :
    qmatcher s e1 (.not q b) = qmatcher s e2 (.not q b) ∧
      qmatcher s e1 (.not q b) = (do
        let child ← qmatcher s none q
        Except.ok (.inverseM child s.rdr.docCountAll s.rdr.deleted)) := by
  constructor
  · simp only [qmatcher]
  · simp only [qmatcher]

/-! ## C4: where TermNotFound is caught -/

/-- C4 (counterexample): `Term.matcher` does *not* let `TermNotFound`
propagate.  Against an empty searcher, `postings` raises
`TermNotFound`, yet `Term("f","a").matcher` returns a `NullMatcher`
instead of the error. -/
theorem c4_counterexample :
    sPostings ⟨⟨[], [], 0, []⟩, [], []⟩
        (sFieldnameToNum ⟨⟨[], [], 0, []⟩, [], []⟩ "f") "a" none =
      .error .termNotFound ∧
      qmatcher ⟨⟨[], [], 0, []⟩, [], []⟩ none (.term "f" "a" 1) =
        .ok .nullM := by
  constructor
  · rfl
  · simp only [qmatcher]
    rfl

/-- Bind in `Except` cannot produce an error neither side produces. -/
theorem except_bind_tnf {α β : Type} {x : Except Err α}
    {f : α → Except Err β} (hx : x ≠ .error .termNotFound)
    (hf : ∀ a, (f a) ≠ .error .termNotFound) :
    (x >>= f) ≠ .error .termNotFound := by
  cases x with
  | error e =>
      intro h
      simp only [bind, Except.bind] at h
      injection h with he
      exact hx (by rw [he])
  | ok a =>
      simp only [bind, Except.bind]
      exact hf a

/-- `estimate_size` can raise `ValueError` or `NotImplementedError` but
never `TermNotFound`. -/
theorem estimate_tnf_strong :
    ∀ n : Nat,
      (∀ (s : Searcher) (q : Query), qsize q ≤ n →
        estimateSize s q ≠ .error .termNotFound) ∧
      (∀ (s : Searcher) (l : List Query), qsizeList l ≤ n →
        estList s l ≠ .error .termNotFound) := by
  intro n
  induction n using Nat.strong_induction_on with
  | _ n ih =>
  have P1 : ∀ (s : Searcher) (q : Query), qsize q ≤ n →
      estimateSize s q ≠ .error .termNotFound := by
    intro s q hq
    match q with
    | .term f t b => simp [estimateSize]
    | .prefixQ f t b => simp [estimateSize]
    | .wildcard f t b => simp [estimateSize]
    | .fuzzy f t b ms pl => simp [estimateSize]
    | .range f t e sx ex b => simp [estimateSize]
    | .variations f t b ws => simp [estimateSize]
    | .every b => simp [estimateSize]
    | .null => simp [estimateSize]
    | .not q2 b => simp [estimateSize]
    | .require a c b => simp [estimateSize]
    | .andMaybe a c b => simp [estimateSize]
    | .andNot a c b => simp [estimateSize]
    | .phrase f ws sl b =>
        rw [estimateSize]
        cases ws.map (fun w => s.rdr.docFreq (s.rdr.fieldnameToNum f) w) with
        | nil => simp
        | cons k ks => simp
    | .and cs b =>
        have hsz : qsizeList cs ≤ n - 1 ∧ n - 1 < n := by
          simp [qsize] at hq
          omega
        rw [estimateSize]
        refine except_bind_tnf ((ih (n - 1) hsz.2).2 s cs hsz.1) ?_
        intro ks
        cases ks <;> simp
    | .or cs b mm =>
        have hsz : qsizeList cs ≤ n - 1 ∧ n - 1 < n := by
          simp [qsize] at hq
          omega
        rw [estimateSize]
        exact except_bind_tnf ((ih (n - 1) hsz.2).2 s cs hsz.1) (fun ks => by simp)
    | .disMax cs b tb =>
        have hsz : qsizeList cs ≤ n - 1 ∧ n - 1 < n := by
          simp [qsize] at hq
          omega
        rw [estimateSize]
        exact except_bind_tnf ((ih (n - 1) hsz.2).2 s cs hsz.1) (fun ks => by simp)
  refine ⟨P1, ?_⟩
  intro s l hl
  induction l with
  | nil => simp [estList]
  | cons q qs ihl =>
    have h1 : qsize q ≤ n := by
      simp [qsizeList] at hl
      omega
    have h2 : qsizeList qs ≤ n := by
      simp [qsizeList] at hl
      have := qsizeP q
      omega
    rw [estList]
    refine except_bind_tnf (P1 s q h1) ?_
    intro k
    refine except_bind_tnf (ihl h2) ?_
    intro ks
    simp

/-- `MultiTerm.matcher` is total: it never raises at all. -/
theorem multiMatcher_ok (s : Searcher) (excl : Option (List Nat))
    (f : String) (b : ℚ) (ws : List String) :
    ∀ e : Err, multiMatcher s excl f b ws ≠ .error e := by
  intro e
  rw [multiMatcher]
  split <;> simp

/-- `Phrase.matcher`'s posting fetches are guarded by the containment
check, so they cannot raise `TermNotFound`. -/
theorem phrase_mapM_tnf (s : Searcher) (fn : Nat)
    (excl : Option (List Nat)) (ws : List String)
    (hall : ∀ w ∈ ws, s.rdr.containsNum (fn, w) = true) :
    ws.mapM (fun w => sPostings s fn w excl) ≠ .error .termNotFound := by
  induction ws with
  | nil =>
      intro hcontra
      simp [List.mapM, List.mapM.loop, pure, Except.pure] at hcontra
  | cons w ws2 ih =>
    rw [List.mapM_cons]
    have hw : sPostings s fn w excl ≠ .error .termNotFound := by
      rw [sPostings, if_pos (hall w (by simp))]
      simp
    refine except_bind_tnf hw ?_
    intro m
    refine except_bind_tnf (ih (fun w2 hw2 => hall w2 (by simp [hw2]))) ?_
    intro ms2
    intro hcontra
    simp [pure, Except.pure] at hcontra

/-- C4 (amended): `TermNotFound` is caught at *three* sites inside the
query core — `Query.docs` (returns empty), `MultiTerm.matcher` (whose own
handler is unreachable because the third site already catches), and
`Term.matcher` (returns `NullMatcher`) — so no matcher construction and
no `docs` call ever propagates `TermNotFound` to the caller. -/
theorem c4_term_not_found_caught :
    ∀ n : Nat,
      (∀ (s : Searcher) (excl : Option (List Nat)) (q : Query),
        4 * qsize q + 1 ≤ n → qmatcher s excl q ≠ .error .termNotFound) ∧
      (∀ (s : Searcher) (excl : Option (List Nat)) (l : List Query),
        4 * qsizeList l + 3 ≤ n →
          qmatcherList s excl l ≠ .error .termNotFound) ∧
      (∀ (s : Searcher) (excl : Option (List Nat)) (q : Query),
        4 * qsize q + 2 ≤ n → docsFn s excl q ≠ .error .termNotFound) ∧
      (∀ (s : Searcher) (acc : List Nat) (l : List Query),
        4 * qsizeList l + 3 ≤ n →
          notVectorGo s acc l ≠ .error .termNotFound) := by
  intro n
  induction n using Nat.strong_induction_on with
  | _ n ih =>
  have P1 : ∀ (s : Searcher) (excl : Option (List Nat)) (q : Query),
      4 * qsize q + 1 ≤ n → qmatcher s excl q ≠ .error .termNotFound := by
    intro s excl q hq
    match q with
    | .term f t b => simp [qmatcher]
    | .every b => simp [qmatcher]
    | .null => simp [qmatcher]
    | .prefixQ f t b =>
        rw [qmatcher]
        exact multiMatcher_ok s excl f b _ _
    | .wildcard f t b =>
        rw [qmatcher]
        exact multiMatcher_ok s excl f b _ _
    | .fuzzy f t b ms pl =>
        rw [qmatcher]
        exact multiMatcher_ok s excl f b _ _
    | .range f t e sx ex b =>
        rw [qmatcher]
        exact multiMatcher_ok s excl f b _ _
    | .variations f t b ws =>
        rw [qmatcher]
        exact multiMatcher_ok s excl f b _ _
    | .not q2 b =>
        have hsz : 4 * qsize q2 + 1 ≤ n - 1 ∧ n - 1 < n := by
          simp [qsize] at hq
          omega
        rw [qmatcher]
        exact except_bind_tnf ((ih (n - 1) hsz.2).1 s none q2 hsz.1)
          (fun m => by simp)
    | .require a c b =>
        have hsz : 4 * qsize a + 1 ≤ n - 1 ∧ 4 * qsize c + 1 ≤ n - 1 ∧
            n - 1 < n := by
          simp [qsize] at hq
          omega
        rw [qmatcher]
        refine except_bind_tnf ((ih (n - 1) hsz.2.2).1 s excl a hsz.1) ?_
        intro ma
        exact except_bind_tnf ((ih (n - 1) hsz.2.2).1 s excl c hsz.2.1)
          (fun mc => by simp)
    | .andMaybe a c b =>
        have hsz : 4 * qsize a + 1 ≤ n - 1 ∧ 4 * qsize c + 1 ≤ n - 1 ∧
            n - 1 < n := by
          simp [qsize] at hq
          omega
        rw [qmatcher]
        refine except_bind_tnf ((ih (n - 1) hsz.2.2).1 s excl a hsz.1) ?_
        intro ma
        exact except_bind_tnf ((ih (n - 1) hsz.2.2).1 s excl c hsz.2.1)
          (fun mc => by simp)
    | .andNot p n2 b =>
        have hsz : 4 * qsizeList [n2] + 3 ≤ n - 1 ∧ 4 * qsize p + 1 ≤ n - 1 ∧
            n - 1 < n := by
          simp [qsize, qsizeList] at hq ⊢
          omega
        rw [qmatcher]
        refine except_bind_tnf ((ih (n - 1) hsz.2.2).2.2.2 s _ [n2] hsz.1) ?_
        intro ev
        exact (ih (n - 1) hsz.2.2).1 s (some ev) p hsz.2.1
    | .phrase f ws sl b =>
        rw [qmatcher]
        split
        · simp
        · rename_i hguard
          have hall : ∀ w ∈ ws, s.rdr.containsNum (sFieldnameToNum s f, w) = true := by
            intro w hw
            by_contra hcon
            apply hguard
            rw [List.any_eq_true]
            exact ⟨w, hw, by simp [hcon]⟩
          refine except_bind_tnf (phrase_mapM_tnf s _ excl ws hall) ?_
          intro wms
          split
          · simp
          · split <;> simp
    | .and cs b =>
        have hb : 4 * qsizeList ((cs.filter (fun q => q.isNot)).map Query.notInner) + 3 ≤ n - 1 ∧
            4 * qsizeList (cs.filter (fun q => !q.isNot)) + 3 ≤ n - 1 ∧ n - 1 < n := by
          have h1 := qsizeList_notInner_le cs
          have h2 := qsizeList_filter_le (fun q => !q.isNot) cs
          simp [qsize] at hq
          omega
        rw [qmatcher]
        refine except_bind_tnf ((ih (n - 1) hb.2.2).2.2.2 s _ _ hb.1) ?_
        intro ev
        refine except_bind_tnf ((estimate_tnf_strong (qsizeList (cs.filter (fun q => !q.isNot)))).2 s _ le_rfl) ?_
        intro keys
        have hsort := qsizeList_sortByKey_le (cs.filter (fun q => !q.isNot)) keys
        refine except_bind_tnf ((ih (n - 1) hb.2.2).2.1 s (some ev) _ (by omega)) ?_
        intro ms
        simp
    | .or cs b mm =>
        have hb : 4 * qsizeList ((cs.filter (fun q => q.isNot)).map Query.notInner) + 3 ≤ n - 1 ∧
            4 * qsizeList (cs.filter (fun q => !q.isNot)) + 3 ≤ n - 1 ∧ n - 1 < n := by
          have h1 := qsizeList_notInner_le cs
          have h2 := qsizeList_filter_le (fun q => !q.isNot) cs
          simp [qsize] at hq
          omega
        rw [qmatcher]
        refine except_bind_tnf ((ih (n - 1) hb.2.2).2.2.2 s _ _ hb.1) ?_
        intro ev
        refine except_bind_tnf ((estimate_tnf_strong (qsizeList (cs.filter (fun q => !q.isNot)))).2 s _ le_rfl) ?_
        intro keys
        have hsort := qsizeList_sortByKey_le (cs.filter (fun q => !q.isNot)) keys
        refine except_bind_tnf ((ih (n - 1) hb.2.2).2.1 s (some ev) _ (by omega)) ?_
        intro ms
        simp
    | .disMax cs b tb =>
        have hb : 4 * qsizeList ((cs.filter (fun q => q.isNot)).map Query.notInner) + 3 ≤ n - 1 ∧
            4 * qsizeList (cs.filter (fun q => !q.isNot)) + 3 ≤ n - 1 ∧ n - 1 < n := by
          have h1 := qsizeList_notInner_le cs
          have h2 := qsizeList_filter_le (fun q => !q.isNot) cs
          simp [qsize] at hq
          omega
        rw [qmatcher]
        refine except_bind_tnf ((ih (n - 1) hb.2.2).2.2.2 s _ _ hb.1) ?_
        intro ev
        refine except_bind_tnf ((estimate_tnf_strong (qsizeList (cs.filter (fun q => !q.isNot)))).2 s _ le_rfl) ?_
        intro keys
        have hsort := qsizeList_sortByKey_le (cs.filter (fun q => !q.isNot)) keys
        refine except_bind_tnf ((ih (n - 1) hb.2.2).2.1 s (some ev) _ (by omega)) ?_
        intro ms
        simp
  have P3 : ∀ (s : Searcher) (excl : Option (List Nat)) (q : Query),
      4 * qsize q + 2 ≤ n → docsFn s excl q ≠ .error .termNotFound := by
    intro s excl q hq
    match q with
    | .require a c b =>
        have hsz : 4 * qsize (Query.and [a, c] 1) + 2 ≤ n - 1 ∧ n - 1 < n := by
          simp [qsize, qsizeList] at hq ⊢
          omega
        rw [docsFn]
        exact (ih (n - 1) hsz.2).2.2.1 s excl _ hsz.1
    | .andMaybe a c b =>
        have hsz : 4 * qsize a + 2 ≤ n - 1 ∧ n - 1 < n := by
          simp [qsize] at hq
          omega
        rw [docsFn]
        exact (ih (n - 1) hsz.2).2.2.1 s excl a hsz.1
    | .null => simp [docsFn]
    | .term f t b =>
        rw [docsFn]
        · cases h : qmatcher s excl (.term f t b) with
          | ok m => simp
          | error e => cases e <;> simp
        all_goals simp
    | .and cs b =>
        rw [docsFn]
        · cases h : qmatcher s excl (.and cs b) with
          | ok m => simp
          | error e => cases e <;> simp
        all_goals simp
    | .or cs b mm =>
        rw [docsFn]
        · cases h : qmatcher s excl (.or cs b mm) with
          | ok m => simp
          | error e => cases e <;> simp
        all_goals simp
    | .disMax cs b tb =>
        rw [docsFn]
        · cases h : qmatcher s excl (.disMax cs b tb) with
          | ok m => simp
          | error e => cases e <;> simp
        all_goals simp
    | .not q2 b =>
        rw [docsFn]
        · cases h : qmatcher s excl (.not q2 b) with
          | ok m => simp
          | error e => cases e <;> simp
        all_goals simp
    | .prefixQ f t b =>
        rw [docsFn]
        · cases h : qmatcher s excl (.prefixQ f t b) with
          | ok m => simp
          | error e => cases e <;> simp
        all_goals simp
    | .wildcard f t b =>
        rw [docsFn]
        · cases h : qmatcher s excl (.wildcard f t b) with
          | ok m => simp
          | error e => cases e <;> simp
        all_goals simp
    | .fuzzy f t b ms pl =>
        rw [docsFn]
        · cases h : qmatcher s excl (.fuzzy f t b ms pl) with
          | ok m => simp
          | error e => cases e <;> simp
        all_goals simp
    | .range f t e2 sx ex b =>
        rw [docsFn]
        · cases h : qmatcher s excl (.range f t e2 sx ex b) with
          | ok m => simp
          | error e => cases e <;> simp
        all_goals simp
    | .variations f t b ws =>
        rw [docsFn]
        · cases h : qmatcher s excl (.variations f t b ws) with
          | ok m => simp
          | error e => cases e <;> simp
        all_goals simp
    | .phrase f ws sl b =>
        rw [docsFn]
        · cases h : qmatcher s excl (.phrase f ws sl b) with
          | ok m => simp
          | error e => cases e <;> simp
        all_goals simp
    | .every b =>
        rw [docsFn]
        · cases h : qmatcher s excl (.every b) with
          | ok m => simp
          | error e => cases e <;> simp
        all_goals simp
    | .andNot a c b =>
        rw [docsFn]
        · cases h : qmatcher s excl (.andNot a c b) with
          | ok m => simp
          | error e => cases e <;> simp
        all_goals simp
  refine ⟨P1, ?_, P3, ?_⟩
  · intro s excl l hl
    induction l with
    | nil => simp [qmatcherList]
    | cons q qs ihl =>
      have h1 : 4 * qsize q + 1 ≤ n := by
        simp [qsizeList] at hl
        omega
      have h2 : 4 * qsizeList qs + 3 ≤ n := by
        simp [qsizeList] at hl
        have := qsizeP q
        omega
      rw [qmatcherList]
      refine except_bind_tnf (P1 s excl q h1) ?_
      intro m
      refine except_bind_tnf (ihl h2) ?_
      intro ms
      simp
  · intro s acc l hl
    induction l generalizing acc with
    | nil => simp [notVectorGo]
    | cons q qs ihl =>
      have h1 : 4 * qsize q + 2 ≤ n := by
        simp [qsizeList] at hl
        omega
      have h2 : 4 * qsizeList qs + 3 ≤ n := by
        simp [qsizeList] at hl
        have := qsizeP q
        omega
      rw [notVectorGo]
      refine except_bind_tnf (P3 s none q h1) ?_
      intro ids
      exact ihl (acc ++ ids) h2

/-- C4 witness at the term query against an empty searcher. -/
theorem c4_term_not_found_caught_witness :
    (4 * qsize (Query.term "f" "a" 1) + 1 ≤ 5 ∧
      qmatcher ⟨⟨[], [], 0, []⟩, [], []⟩ none (.term "f" "a" 1) ≠
        .error .termNotFound) ∧
      4 * qsize (Query.term "f" "a" 1) + 2 ≤ 6 ∧
      docsFn ⟨⟨[], [], 0, []⟩, [], []⟩ none (.term "f" "a" 1) ≠
        .error .termNotFound :=
  ⟨⟨by decide,
    (c4_term_not_found_caught 5).1 ⟨⟨[], [], 0, []⟩, [], []⟩ none
      (.term "f" "a" 1) (by decide)⟩,
   by decide,
   (c4_term_not_found_caught 6).2.2.1 ⟨⟨[], [], 0, []⟩, [], []⟩ none
     (.term "f" "a" 1) (by decide)⟩

/-! ## C8: MultiReader.term_info merging -/

/-- C8: `MultiReader.term_info` merging.  If no containing segment exists
the call raises `TermNotFound`.  Otherwise, provided every containing
segment records a `min_id`, the returned `TermInfo` has weight and doc
frequency equal to the sums over the containing segments, min/max length
and max weight equal to the min/max over them (with Python-2 `None`
sorting below every integer), and `min_id`/`max_id` equal to the min/max
of the per-segment ids shifted by each segment's base doc offset.  The
single-segment fast path satisfies the same formulas. -/
theorem c8_multi_term_info (mr : MultiReader) (f t : String)
    (tis : List (TermInfo × Nat))
    (htis : tis = (mr.readers.zip mr.docOffsets).filterMap
      (fun p => (segTermInfo p.1 (f, t)).map (fun ti => (ti, p.2)))) :
    (tis = [] → multiTermInfo mr f t = .error .termNotFound) ∧
    (∀ t1 o1 rest, tis = (t1, o1) :: rest →
      (∀ p ∈ tis, p.1.minid.isSome = true) →
      multiTermInfo mr f t = .ok
        { weight := sumQ (tis.map (fun p => p.1.weight)),
          df := sumN (tis.map (fun p => p.1.df)),
          minlength := pyMinList (tis.map (fun p => p.1.minlength)),
          maxlength := maxN t1.maxlength (rest.map (fun p => p.1.maxlength)),
          maxweight := maxQ t1.maxweight (rest.map (fun p => p.1.maxweight)),
          minid := some (minN (t1.minid.getD 0 + o1)
            (rest.map (fun p => p.1.minid.getD 0 + p.2))),
          maxid := maxN (t1.maxid + o1)
            (rest.map (fun p => p.1.maxid + p.2)) }) := by
  constructor
  · intro hnil
    rw [multiTermInfo]
    rw [← htis, hnil]
  · intro t1 o1 rest hcons hid
    rw [multiTermInfo]
    rw [← htis, hcons]
    cases rest with
    | nil =>
        have h1 : t1.minid.isSome = true := hid (t1, o1) (by rw [hcons]; simp)
        obtain ⟨m, hm⟩ := Option.isSome_iff_exists.mp h1
        simp only [hm]
        simp [sumQ, sumN, pyMinList, maxN, maxQ, minN, hm]
    | cons p2 rest2 =>
        have hnone : (((t1, o1) :: p2 :: rest2).any
            (fun p => p.1.minid.isNone)) = false := by
          rw [List.any_eq_false]
          intro p hp
          have := hid p (by rw [hcons]; exact hp)
          simp [Option.isNone_iff_eq_none] at this ⊢
          exact Option.isSome_iff_ne_none.mp this
        simp only [hnone]
        simp

/-- C8 witness: a two-segment reader, offsets 0 and 10, both containing
the term. -/
theorem c8_multi_term_info_witness :
    multiTermInfo
        ⟨[[(("f", "a"), ⟨2, 1, some 3, 5, 2, some 0, 4⟩)],
          [(("f", "a"), ⟨1, 1, some 2, 7, 1, some 1, 2⟩)]], [0, 10]⟩
        "f" "a" = .ok ⟨3, 2, some 2, 7, 2, some 0, 12⟩ := by
  have h := (c8_multi_term_info
      ⟨[[(("f", "a"), ⟨2, 1, some 3, 5, 2, some 0, 4⟩)],
        [(("f", "a"), ⟨1, 1, some 2, 7, 1, some 1, 2⟩)]], [0, 10]⟩
      "f" "a"
      [(⟨2, 1, some 3, 5, 2, some 0, 4⟩, 0), (⟨1, 1, some 2, 7, 1, some 1, 2⟩, 10)]
      (by decide)).2
      ⟨2, 1, some 3, 5, 2, some 0, 4⟩ 0 [(⟨1, 1, some 2, 7, 1, some 1, 2⟩, 10)]
      rfl (by decide)
  rw [h]
  simp [sumQ, sumN, pyMinList, py2min, maxN, maxQ, minN]
  norm_num

end Whoosh
